import Mathlib

/-!
Shallow embedding of the formula layout engine in `src/main.cpp`.

The program parses a LaTeX-like markup string into a tree of layout nodes
(`RowNode`, `TextNode`, `FracNode`, `ScriptNode`, `BigOperatorNode`,
`IntegralNode`, `SqrtNode`, `ScalingFenceNode`), then runs a bottom-up
`Measure` pass (computing `width`/`height`/`ascent` per node, using the
renderer's text metrics) and a top-down `Draw` pass (emitting line and text
primitives).

Modelling conventions:
* wide strings are `String` (payloads) / `List Char` (parser input);
  `Peek() == 0` is identified with end-of-input (inputs are NUL-free);
* `iswdigit`/`iswalpha` are modelled by `Char.isDigit`/`Char.isAlpha`;
* C `int` arithmetic is `Int`; a C cast `(int)(x * f)` of a `double` product
  truncates toward zero and is modelled by `cmul a b x = (x*a).tdiv b` for
  `f = a/b` (exact for the sizes reachable from the program's base font size;
  double rounding of `0.6`/`0.7` can differ by one at some multiples of 5);
* the stateful `IRenderer` (current font size/style, then metric query) is a
  pure function of the size, style and string, since every node sets the
  state it needs immediately before querying;
* the mutable `width`/`height`/`ascent` fields live in every node
  (`Dims`, zero-initialized as in C++); `measure` recomputes them bottom-up
  and `draw` reads the stored values, as the C++ code does;
* the parser loops are given explicit fuel (first argument); the C++
  functions always terminate, which is proved below as fuel adequacy.
-/

namespace MathSuite

/-- The derived geometry every `MathNode` carries: `width`, `height`, and
`ascent` (top edge to baseline). In C++ these are `int` fields of `MathNode`,
zero-initialized. -/
structure Dims where
  width : Int
  height : Int
  ascent : Int
deriving DecidableEq, Repr

/-- Zero-initialized geometry, the state of every freshly constructed node. -/
def dims0 : Dims := ⟨0, 0, 0⟩

/-- The renderer capability (`IRenderer`), reduced to its two metric queries.
`textWidth size italic s` models `SetFontSize(size); SetFontStyle(italic);
GetTextWidth(s)` and `textHeight size italic` models `GetTextHeight()` in the
same state. -/
structure Renderer where
  textWidth : Int → Bool → String → Int
  textHeight : Int → Bool → Int

/-- A drawing primitive emitted through the renderer: `DrawLine` or
`DrawTextStr` (the latter recording the font state active at the call). -/
inductive Prim where
  | line (x1 y1 x2 y2 : Int)
  | textP (x y : Int) (fontSize : Int) (italic : Bool) (s : String)
deriving DecidableEq, Repr

/-- Truncating (toward-zero) integer division, as C `/` on `int` and as the
C cast `(int)` of a double. -/
def ctdiv (x y : Int) : Int := Int.tdiv x y

/-- Models the C expression `(int)(x * (a/b))` where `a/b` stands for a
decimal scale factor (`0.8 = 4/5`, `1.5 = 3/2`, `0.7 = 7/10`, `0.6 = 3/5`,
`0.5 = 1/2`, `0.1 = 1/10`, `0.15 = 3/20`). -/
def cmul (a b x : Int) : Int := ctdiv (x * a) b

/-- The polymorphic node family of the layout engine, one constructor per
C++ node class, each carrying its mutable `Dims` first. The C++
`IntegralNode` also declares an `integrand` member that is never assigned or
read anywhere in the program; it is omitted. -/
inductive MathNode where
  | RowNode (d : Dims) (children : List MathNode)
  | TextNode (d : Dims) (text : String) (italic : Bool) (fontSize : Int) (hOffset : Int)
  | FracNode (d : Dims) (num den : MathNode) (fontSize : Int)
  | ScriptNode (d : Dims) (base : MathNode) (super sub : Option MathNode)
  | BigOperatorNode (d : Dims) (opSymbol : String) (lower upper : Option MathNode)
      (fontSize : Int) (isTextOp : Bool)
  | IntegralNode (d : Dims) (lower upper : Option MathNode) (baseSize : Int)
  | SqrtNode (d : Dims) (child : MathNode) (index : Option MathNode)
  | ScalingFenceNode (d : Dims) (content : MathNode) (leftDelim rightDelim : String)

/-- The stored geometry of a node (the C++ `width`/`height`/`ascent` fields). -/
def dims : MathNode → Dims
  | .RowNode d _ => d
  | .TextNode d _ _ _ _ => d
  | .FracNode d _ _ _ => d
  | .ScriptNode d _ _ _ => d
  | .BigOperatorNode d _ _ _ _ _ => d
  | .IntegralNode d _ _ _ => d
  | .SqrtNode d _ _ => d
  | .ScalingFenceNode d _ _ _ => d

/-- The `RowNode::Measure` loop `width += c->width` over the children. -/
def sumWidths (ms : List MathNode) : Int :=
  ms.foldl (fun w c => w + (dims c).width) 0

/-- The `RowNode::Measure` loop step `if (c->ascent > maxAscent) maxAscent = c->ascent`. -/
def maxAscent (ms : List MathNode) : Int :=
  ms.foldl (fun a c => max a (dims c).ascent) 0

/-- The `RowNode::Measure` loop: running maximum of the descents
`c->height - c->ascent`. -/
def maxDescent (ms : List MathNode) : Int :=
  ms.foldl (fun a c => max a ((dims c).height - (dims c).ascent)) 0

mutual

/-- The `Measure` pass: recomputes every node's `Dims` bottom-up, exactly as
the C++ `Measure(IRenderer*)` overrides do. Stored (stale) dims are ignored;
children are measured first and their fresh geometry is used. -/
def measure (r : Renderer) : MathNode → MathNode
  | .RowNode _ cs =>
      let ms := measureList r cs
      .RowNode ⟨sumWidths ms, maxAscent ms + maxDescent ms, maxAscent ms⟩ ms
  | .TextNode _ s it fs off =>
      let h := r.textHeight fs it
      .TextNode ⟨r.textWidth fs it s + off, h, cmul 4 5 h⟩ s it fs off
  | .FracNode _ n d fs =>
      let mn := measure r n
      let md := measure r d
      .FracNode ⟨max (dims mn).width (dims md).width + 10,
                 (dims mn).height + (dims md).height + 4,
                 (dims mn).height + 2⟩ mn md fs
  | .ScriptNode _ b sup sub =>
      let mb := measure r b
      let msup := measureOpt r sup
      let msub := measureOpt r sub
      let a1 := match msup with
        | some s => max (dims mb).ascent ((dims s).height + ctdiv (dims mb).ascent 2)
        | none => (dims mb).ascent
      let w1 := match msup with
        | some s => max 0 (dims s).width
        | none => 0
      let h1 := match msub with
        | some s => max (dims mb).height ((dims s).height + a1)
        | none => (dims mb).height
      let w2 := match msub with
        | some s => max w1 (dims s).width
        | none => w1
      .ScriptNode ⟨(dims mb).width + w2, h1, a1⟩ mb msup msub
  | .BigOperatorNode _ sym lo up fs isTextOp =>
      let sz := if isTextOp then fs else cmul 3 2 fs
      let baseW := r.textWidth sz false sym
      let baseH := r.textHeight sz false
      let mlo := measureOpt r lo
      let mup := measureOpt r up
      let lowW := match mlo with | some m => (dims m).width | none => 0
      let lowH := match mlo with | some m => (dims m).height | none => 0
      let upW := match mup with | some m => (dims m).width | none => 0
      let upH := match mup with | some m => (dims m).height | none => 0
      let topPart := upH + cmul 4 5 baseH
      let botPart := (baseH - cmul 4 5 baseH) + lowH
      .BigOperatorNode ⟨max baseW (max lowW upW) + 4, topPart + botPart, topPart⟩
        sym mlo mup fs isTextOp
  | .IntegralNode _ lo up bs =>
      let intW := r.textWidth (cmul 3 2 bs) false ("∫")
      let intH := r.textHeight (cmul 3 2 bs) false
      let mlo := measureOpt r lo
      let mup := measureOpt r up
      let lw1 := match mup with | some m => max 0 (dims m).width | none => 0
      let lh1 := match mup with | some m => 0 + (dims m).height | none => 0
      let limitsW := match mlo with | some m => max lw1 (dims m).width | none => lw1
      let limitsH := match mlo with | some m => lh1 + (dims m).height | none => lh1
      .IntegralNode ⟨intW + limitsW + 4, max intH limitsH, ctdiv intH 2⟩ mlo mup bs
  | .SqrtNode _ c idx =>
      let mc := measure r c
      match measureOpt r idx with
      | none =>
          .SqrtNode ⟨(dims mc).width + 15, (dims mc).height + 5, (dims mc).ascent + 5⟩ mc none
      | some mi =>
          let a := max ((dims mc).ascent + 5) ((dims mi).height + 5)
          .SqrtNode ⟨(dims mc).width + 15 + max 0 ((dims mi).width - 5),
                     max ((dims mc).height + 5) (a + ((dims mc).height - (dims mc).ascent)),
                     a⟩ mc (some mi)
  | .ScalingFenceNode _ c l rg =>
      let mc := measure r c
      .ScalingFenceNode ⟨(dims mc).width + 14, (dims mc).height, (dims mc).ascent⟩ mc l rg

/-- Measures a child list left to right (the `for (auto& c : children)` loop). -/
def measureList (r : Renderer) : List MathNode → List MathNode
  | [] => []
  | c :: cs => measure r c :: measureList r cs

/-- Measures an optional child (`if (super) { super->Measure(r); ... }`). -/
def measureOpt (r : Renderer) : Option MathNode → Option MathNode
  | none => none
  | some m => some (measure r m)

end

/-- Lines synthesized by `ScalingFenceNode::Draw` for the left delimiter. -/
def leftFenceLines (l : String) (x y h : Int) : List Prim :=
  if l = "|" then [.line (x + 2) y (x + 2) (y + h)]
  else if l = "(" then
    [.line (x + 5) y (x + 1) (y + ctdiv h 2),
     .line (x + 1) (y + ctdiv h 2) (x + 5) (y + h)]
  else if l = "[" then
    [.line (x + 5) y (x + 5) (y + h),
     .line (x + 5) y (x + 10) y,
     .line (x + 5) (y + h) (x + 10) (y + h)]
  else []

/-- Lines synthesized by `ScalingFenceNode::Draw` for the right delimiter. -/
def rightFenceLines (rg : String) (x y w h : Int) : List Prim :=
  if rg = "|" then [.line (x + w - 2) y (x + w - 2) (y + h)]
  else if rg = ")" then
    [.line (x + w - 5) y (x + w - 1) (y + ctdiv h 2),
     .line (x + w - 1) (y + ctdiv h 2) (x + w - 5) (y + h)]
  else if rg = "]" then
    [.line (x + w - 5) y (x + w - 5) (y + h),
     .line (x + w - 5) y (x + w - 10) y,
     .line (x + w - 5) (y + h) (x + w - 10) (y + h)]
  else []

mutual

/-- The `Draw` pass: given the stored (measured) geometry and an origin,
emits the primitives of the node and its children in C++ call order. -/
def draw (r : Renderer) : MathNode → Int → Int → List Prim
  | .RowNode d cs, x, y => drawRow r d.ascent cs x y
  | .TextNode _ s it fs off, x, y => [.textP (x + off) y fs it s]
  | .FracNode d n dn _, x, y =>
      let midX := x + ctdiv d.width 2
      let lineY := y + (dims n).height + 2
      draw r n (midX - ctdiv (dims n).width 2) y
        ++ [.line x lineY (x + d.width) lineY]
        ++ draw r dn (midX - ctdiv (dims dn).width 2) (lineY + 2)
  | .ScriptNode d b sup sub, x, y =>
      let baseY := y + (d.ascent - (dims b).ascent)
      let scriptX := x + (dims b).width
      draw r b x baseY
        ++ (match sup with
            | some s => draw r s scriptX (baseY - cmul 1 2 (dims s).height)
            | none => [])
        ++ (match sub with
            | some s =>
                draw r s scriptX
                  (baseY + (dims b).height - (dims b).ascent + cmul 1 10 (dims s).height)
            | none => [])
  | .BigOperatorNode d sym lo up fs isTextOp, x, y =>
      let midX := x + ctdiv d.width 2
      let sz := if isTextOp then fs else cmul 3 2 fs
      let opW := r.textWidth sz false sym
      let opH := r.textHeight sz false
      let opY := y + (match up with | some u => (dims u).height | none => 0)
      (match up with
       | some u => draw r u (midX - ctdiv (dims u).width 2) y
       | none => [])
        ++ [.textP (midX - ctdiv opW 2) opY sz false sym]
        ++ (match lo with
            | some l => draw r l (midX - ctdiv (dims l).width 2) (opY + opH)
            | none => [])
  | .IntegralNode d lo up bs, x, y =>
      let sz := cmul 3 2 bs
      let intW := r.textWidth sz false ("∫")
      let intH := r.textHeight sz false
      let opY := y + (d.ascent - ctdiv intH 2)
      let limX := x + intW + 2
      [Prim.textP x opY sz false ("∫")]
        ++ (match up with | some u => draw r u limX (opY + 2) | none => [])
        ++ (match lo with
            | some l => draw r l limX (opY + intH - (dims l).height - 2)
            | none => [])
  | .SqrtNode d c idx, x, y =>
      let startX := match idx with | some i => x + max 5 (dims i).width | none => x
      let bottomY := y + d.ascent + ((dims c).height - (dims c).ascent)
      let topY := y + (d.ascent - (dims c).ascent - 5)
      (match idx with | some i => draw r i x y | none => [])
        ++ draw r c (startX + 10) (y + (d.ascent - (dims c).ascent - 5) + 5)
        ++ [.line startX (bottomY - ctdiv (bottomY - topY) 2) (startX + 5) bottomY,
            .line (startX + 5) bottomY (startX + 10) topY,
            .line (startX + 10) topY (startX + (dims c).width + 15) topY]
  | .ScalingFenceNode d c l rg, x, y =>
      draw r c (x + 7) y
        ++ leftFenceLines l x y d.height
        ++ rightFenceLines rg x y d.width d.height

/-- The loop of `RowNode::Draw`: children left to right at the running `curX`, each
shifted down by `ascent - c->ascent`. -/
def drawRow (r : Renderer) (asc : Int) : List MathNode → Int → Int → List Prim
  | [], _, _ => []
  | c :: cs, x, y =>
      draw r c x (y + (asc - (dims c).ascent)) ++ drawRow r asc cs (x + (dims c).width) y

end

/-- The contents of `Parser::InitSymbols`, in insertion order. The C++ map is
keyed by macro name; only membership and lookup are used, so an association
list is an exact model (all keys are distinct). -/
def symbolTable : List (String × String) :=
  [("Alpha", "Α"), ("Beta", "Β"), ("Gamma", "Γ"),
   ("Delta", "Δ"), ("Epsilon", "Ε"), ("Zeta", "Ζ"),
   ("Eta", "Η"), ("Theta", "Θ"), ("Lambda", "Λ"),
   ("Xi", "Ξ"), ("Pi", "Π"), ("Sigma", "Σ"),
   ("Phi", "Φ"), ("Psi", "Ψ"), ("Omega", "Ω"),
   ("alpha", "α"), ("beta", "β"), ("gamma", "γ"),
   ("delta", "δ"), ("epsilon", "ε"), ("zeta", "ζ"),
   ("eta", "η"), ("theta", "θ"), ("lambda", "λ"),
   ("xi", "ξ"), ("pi", "π"), ("sigma", "σ"),
   ("phi", "φ"), ("psi", "ψ"), ("omega", "ω"),
   ("infty", "∞"), ("approx", "≈"), ("neq", "≠"),
   ("le", "≤"), ("ge", "≥"), ("pm", "±"),
   ("cdot", "∙"), ("to", "→"),
   ("thinspace", " "), ("quad", "  "),
   ("!", ""), (",", ""), ("\x27", "\x27")]

/-- Models `Parser::InitSymbols` as a state transformer on the static map: a no-op
when the map is already populated, otherwise it installs `symbolTable`. -/
def initSymbols (m : List (String × String)) : List (String × String) :=
  if m.isEmpty then symbolTable else m

/-- The fixed function-name set tested in `Parser::ParseCommand`. -/
def functionNames : List String :=
  ["sin", "cos", "tan", "log", "ln", "lg", "exp", "sinh", "cosh", "asin", "acos"]

/-- Models `if (Peek() != 0) delim += Next();` — takes the next character if any. -/
def takeOne : List Char → List Char × List Char
  | [] => ([], [])
  | c :: t => ([c], t)

/-- The brace-balanced scan inside `Parser::ParseBlockStr`, entered with the
current nesting `depth` (1 after the opening `{` was consumed). Each step
consumes one character, updates the depth, and keeps the character only while
the depth is still positive; the closing brace is dropped. -/
def blockBrace : Nat → List Char → List Char × List Char
  | _, [] => ([], [])
  | depth, c :: t =>
      let d := if c = '{' then depth + 1 else if c = '}' then depth - 1 else depth
      if d = 0 then ([], t)
      else (c :: (blockBrace d t).1, (blockBrace d t).2)

/-- Models `Parser::ParseBlockStr`: a `{...}` block with balanced nesting, a `[...]`
block stopping at the first `]`, or the single next character. Returns the
block contents and the remaining input. -/
def parseBlockStr : List Char → List Char × List Char
  | [] => ([], [])
  | c :: t =>
      if c = '{' then blockBrace 1 t
      else if c = '[' then (t.takeWhile (· ≠ ']'), (t.dropWhile (· ≠ ']')).drop 1)
      else ([c], t)

/-- The `\left`...`\right` matching scan in `Parser::ParseCommand`: walks
forward one character at a time, counting nested `\left`/`\right` pairs, and
stops (without consuming) at the `\right` of depth 0 or at end of input.
Returns the enclosed substring and the remaining input. -/
def leftScan : Nat → List Char → List Char × List Char
  | _, [] => ([], [])
  | d, c :: t =>
      if ("\\right").toList.isPrefixOf (c :: t) then
        if d = 0 then ([], c :: t)
        else (c :: (leftScan (d - 1) t).1, (leftScan (d - 1) t).2)
      else
        let d2 := if ("\\left").toList.isPrefixOf (c :: t) then d + 1 else d
        (c :: (leftScan d2 t).1, (leftScan d2 t).2)

mutual

/-- Models `Parser::Parse`: the top-level loop. Parses items (with script suffixes)
until the input is exhausted or a block terminator `}`/`]` is reached (left
unconsumed). The `Nat` argument is fuel: `none` means the fuel ran out, which
the adequacy theorem below rules out for fuel `2·|input| + 1`. -/
def parseRun : Nat → List (String × String) → Int → List Char →
    Option (List MathNode × List Char)
  | 0, _, _, _ => none
  | n + 1, tbl, fs, s =>
    match s with
    | [] => some ([], [])
    | c :: _ =>
      if c = '}' ∨ c = ']' then some ([], s)
      else
        match parseItem n tbl fs s with
        | none => none
        | some (node, s1) =>
          match checkForScripts n tbl fs node s1 with
          | none => none
          | some (node2, s2) =>
            match parseRun n tbl fs s2 with
            | none => none
            | some (items, s3) => some (node2 :: items, s3)

/-- Models `Parser::ParseItem`: consumes one escape command, a maximal digit run
(digits and `.`), a single italic letter, or a single upright literal. -/
def parseItem : Nat → List (String × String) → Int → List Char →
    Option (MathNode × List Char)
  | 0, _, _, _ => none
  | n + 1, tbl, fs, s =>
    match s with
    | [] => none
    | c :: t =>
      if c = '\\' then parseCommand n tbl fs t
      else if c.isDigit then
        some (.TextNode dims0 (String.mk (c :: t.takeWhile fun d => d.isDigit || d = '.'))
                false fs 0,
              t.dropWhile fun d => d.isDigit || d = '.')
      else if c.isAlpha then some (.TextNode dims0 (String.mk [c]) true fs 0, t)
      else some (.TextNode dims0 (String.mk [c]) false fs 0, t)

/-- The attachment step of `Parser::CheckForScripts` for one `^`/`_` suffix:
a `BigOperatorNode` base takes the parsed content directly as its upper/lower
limit; an existing `ScriptNode` wrapper is reused; any other base is wrapped
in a fresh `ScriptNode`. -/
def attachScript (c : Char) (content base : MathNode) : MathNode :=
  match base with
  | .BigOperatorNode d sym lo up bfs tOp =>
      if c = '^' then .BigOperatorNode d sym lo (some content) bfs tOp
      else .BigOperatorNode d sym (some content) up bfs tOp
  | .ScriptNode d b2 sup sub =>
      if c = '^' then .ScriptNode d b2 (some content) sub
      else .ScriptNode d b2 sup (some content)
  | b =>
      if c = '^' then .ScriptNode dims0 b (some content) none
      else .ScriptNode dims0 b none (some content)

/-- Models `Parser::CheckForScripts`: while the next character is `^`/`_`, extracts
a block, parses it at 70% of the font size, and attaches it: directly as an
operator limit when the base is a `BigOperatorNode`, otherwise into a (lazily
created, then reused) `ScriptNode` wrapper. -/
def checkForScripts : Nat → List (String × String) → Int → MathNode → List Char →
    Option (MathNode × List Char)
  | 0, _, _, _, _ => none
  | n + 1, tbl, fs, base, s =>
    match s with
    | [] => some (base, [])
    | c :: t =>
      if c = '^' ∨ c = '_' then
        let bs := parseBlockStr t
        match parseRun n tbl (cmul 7 10 fs) bs.1 with
        | none => none
        | some (items, _) =>
          checkForScripts n tbl fs (attachScript c (.RowNode dims0 items) base) bs.2
      else some (base, s)

/-- Models `Parser::ParseCommand`: reads the maximal letter run after `\` and
dispatches. Note that the C++ comparisons `cmd == L"!"` and `cmd == L","`
can never hold (the command name is a letter run), so `\!` and `\,` fall
through to the symbol lookup, miss (the map keys are `"!"`/`","`, not `""`),
and yield the `"?"` placeholder; both branches are still transcribed. -/
def parseCommand : Nat → List (String × String) → Int → List Char →
    Option (MathNode × List Char)
  | 0, _, _, _ => none
  | n + 1, tbl, fs, s =>
    let cmd := s.takeWhile Char.isAlpha
    let s1 := s.dropWhile Char.isAlpha
    if cmd = "left".toList then
      let t1 := takeOne s1
      let sc := leftScan 0 t1.2
      match parseRun n tbl fs sc.1 with
      | none => none
      | some (items, _) =>
        let s4 := if ("\\right").toList.isPrefixOf sc.2 then sc.2.drop 6 else sc.2
        let t2 := takeOne s4
        let t3 := if t2.1.isEmpty && !t2.2.isEmpty then takeOne t2.2 else t2
        some (.ScalingFenceNode dims0 (.RowNode dims0 items)
                (String.mk t1.1) (String.mk t3.1), t3.2)
    else if cmd = "frac".toList then
      let p1 := parseBlockStr s1
      let p2 := parseBlockStr p1.2
      match parseRun n tbl fs p1.1 with
      | none => none
      | some (ni, _) =>
        match parseRun n tbl fs p2.1 with
        | none => none
        | some (di, _) =>
          some (.FracNode dims0 (.RowNode dims0 ni) (.RowNode dims0 di) fs, p2.2)
    else if cmd = "sqrt".toList then
      if s1.head? = some '[' then
        let p1 := parseBlockStr s1
        match parseRun n tbl (cmul 3 5 fs) p1.1 with
        | none => none
        | some (ii, _) =>
          let p2 := parseBlockStr p1.2
          match parseRun n tbl fs p2.1 with
          | none => none
          | some (ci, _) =>
            some (.SqrtNode dims0 (.RowNode dims0 ci) (some (.RowNode dims0 ii)), p2.2)
      else
        let p2 := parseBlockStr s1
        match parseRun n tbl fs p2.1 with
        | none => none
        | some (ci, _) => some (.SqrtNode dims0 (.RowNode dims0 ci) none, p2.2)
    else if cmd = "int".toList then some (.IntegralNode dims0 none none fs, s1)
    else if cmd = "sum".toList ∨ cmd = "prod".toList then
      some (.BigOperatorNode dims0 ("∑") none none fs false, s1)
    else if cmd = "lim".toList then some (.BigOperatorNode dims0 ("lim") none none fs true, s1)
    else if cmd = "mathrm".toList then
      let p := parseBlockStr s1
      some (.TextNode dims0 (String.mk p.1) false fs 0, p.2)
    else if cmd = "!".toList then
      some (.TextNode dims0 ("") false fs (-(cmul 3 20 fs)), s1)
    else if cmd = ",".toList then
      some (.TextNode dims0 ("") false fs (cmul 3 20 fs), s1)
    else if functionNames.contains (String.mk cmd) then
      some (.TextNode dims0 (String.mk cmd) false fs 0, s1)
    else
      match tbl.lookup (String.mk cmd) with
      | some v => some (.TextNode dims0 v false fs 0, s1)
      | none => some (.TextNode dims0 ("?") false fs 0, s1)

end

/-- Runs the parser with an explicit symbol-table state and the fuel proved
adequate below, wrapping the parsed items in the root `RowNode` that
`Parser::Parse` returns. -/
def parseWith (tbl : List (String × String)) (fs : Int) (s : List Char) : MathNode :=
  match parseRun (2 * s.length + 1) tbl fs s with
  | some (items, _) => .RowNode dims0 items
  | none => .RowNode dims0 []

/-- Models `Parser(markup, fontSize).Parse()` on a fresh process: the constructor
runs `InitSymbols` on the empty static map, then the top-level loop. -/
def parseTop (fs : Int) (s : List Char) : MathNode :=
  parseWith (initSymbols []) fs s

/-- The markup `x^2_3`. -/
def x23In : List Char := ['x', '^', '2', '_', '3']

/-- The markup `x_3^2`. -/
def x32In : List Char := ['x', '_', '3', '^', '2']

/-- The markup `\sum_\x7bi=1\x7d^\x7bn\x7d i` (backslash-s-u-m, subscript
block `i=1`, superscript block `n`, space, `i`). -/
def sumIn : List Char :=
  ['\\', 's', 'u', 'm', '_', '{', 'i', '=', '1', '}', '^', '{', 'n', '}', ' ', 'i']

/-- The markup `\frac\x7b1\x7d\x7b2\x7d`. -/
def fracIn : List Char := ['\\', 'f', 'r', 'a', 'c', '{', '1', '}', '{', '2', '}']

/-- The number of children of a root sequence node. -/
def rowCount : MathNode → Nat
  | .RowNode _ cs => cs.length
  | _ => 0

/-- Whether a node is a `TextNode`. -/
def isTextNode : MathNode → Bool
  | .TextNode .. => true
  | _ => false

/-- The numerator of the fraction when the tree is a root sequence holding
exactly one `FracNode`. -/
def numOfFrac : MathNode → Option MathNode
  | .RowNode _ [.FracNode _ n _ _] => some n
  | _ => none

/-- The denominator of the fraction when the tree is a root sequence holding
exactly one `FracNode`. -/
def denOfFrac : MathNode → Option MathNode
  | .RowNode _ [.FracNode _ _ d _] => some d
  | _ => none

/-- C3: parsing `x^2_3` and `x_3^2` produces identical trees: a single
`ScriptNode` wrapping the node parsed for `x`, whose superscript is the parse
of `2` and whose subscript is the parse of `3` (both at 70% of the font
size); the order of the `^`/`_` suffixes does not change the result. -/
theorem script_suffix_order_irrelevant (fs : Int) :
    parseTop fs x23In = parseTop fs x32In ∧
    parseTop fs x23In =
      .RowNode dims0
        [.ScriptNode dims0 (.TextNode dims0 ("x") true fs 0)
          (some (.RowNode dims0 [.TextNode dims0 ("2") false (cmul 7 10 fs) 0]))
          (some (.RowNode dims0 [.TextNode dims0 ("3") false (cmul 7 10 fs) 0]))] :=
  ⟨rfl, rfl⟩

/-- C4 counterexample: the root sequence parsed from `\sum_\x7bi=1\x7d^\x7bn\x7d i`
has three children, not two — the space before `i` becomes its own
single-character `TextNode`. -/
theorem sum_parse_yields_three_children :
    rowCount (parseTop 28 sumIn) = 3 ∧ ¬ rowCount (parseTop 28 sumIn) = 2 := by
  decide

/-- C4 as amended: parsing `\sum_\x7bi=1\x7d^\x7bn\x7d i` yields a root
sequence of three children: the `BigOperatorNode` with the summation glyph,
lower limit the parse of `i=1` and upper limit the parse of `n` (both at 70%
of the font size), then a `TextNode` holding the single space, then the
`TextNode` `i`. -/
theorem sum_parse_tree (fs : Int) :
    parseTop fs sumIn =
      .RowNode dims0
        [.BigOperatorNode dims0 ("∑")
            (some (.RowNode dims0
              [.TextNode dims0 ("i") true (cmul 7 10 fs) 0,
               .TextNode dims0 ("=") false (cmul 7 10 fs) 0,
               .TextNode dims0 ("1") false (cmul 7 10 fs) 0]))
            (some (.RowNode dims0 [.TextNode dims0 ("n") true (cmul 7 10 fs) 0]))
            fs false,
         .TextNode dims0 (" ") false fs 0,
         .TextNode dims0 ("i") true fs 0] := rfl

/-- C5 counterexample: in the tree parsed from `\frac\x7b1\x7d\x7b2\x7d`, the
fraction's numerator and denominator are not `TextNode`s — each is a
`RowNode` (sequence) wrapping the single-digit `TextNode`. -/
theorem frac_num_den_not_TextNodes :
    (numOfFrac (parseTop 28 fracIn)).map isTextNode = some false ∧
    (denOfFrac (parseTop 28 fracIn)).map isTextNode = some false := by
  decide

/-- C5 as amended: parsing `\frac\x7b1\x7d\x7b2\x7d` yields one `FracNode`
whose numerator and denominator are each a sequence holding one single-digit
`TextNode`; and for every renderer its measured width is
`max(num.width, den.width) + 10`, its ascent is `num.height + 2`, and its
height is `num.height + den.height + 4`. -/
theorem frac_parse_and_measure (fs : Int) (r : Renderer) :
    parseTop fs fracIn =
      .RowNode dims0
        [.FracNode dims0
          (.RowNode dims0 [.TextNode dims0 ("1") false fs 0])
          (.RowNode dims0 [.TextNode dims0 ("2") false fs 0]) fs] ∧
    dims (measure r
        (.FracNode dims0
          (.RowNode dims0 [.TextNode dims0 ("1") false fs 0])
          (.RowNode dims0 [.TextNode dims0 ("2") false fs 0]) fs)) =
      ⟨max (dims (measure r (.RowNode dims0 [.TextNode dims0 ("1") false fs 0]))).width
           (dims (measure r (.RowNode dims0 [.TextNode dims0 ("2") false fs 0]))).width + 10,
       (dims (measure r (.RowNode dims0 [.TextNode dims0 ("1") false fs 0]))).height
         + (dims (measure r (.RowNode dims0 [.TextNode dims0 ("2") false fs 0]))).height + 4,
       (dims (measure r (.RowNode dims0 [.TextNode dims0 ("1") false fs 0]))).height + 2⟩ :=
  ⟨rfl, rfl⟩

/-- Placeholder node used only as the (never reached) `List.getD` default. -/
def dummyNode : MathNode := .RowNode dims0 []

/-- The placement of child `i` of a measured sequence as the specification
states it: drawn at horizontal offset the sum of the widths of children
`0..i-1` and at vertical offset `rowAscent − child.ascent` below the origin. -/
def specChildPrims (r : Renderer) (rowAsc x y : Int) (ms : List MathNode) (i : Nat) :
    List Prim :=
  draw r (ms.getD i dummyNode)
    (x + ((ms.take i).map fun c => (dims c).width).sum)
    (y + (rowAsc - (dims (ms.getD i dummyNode)).ascent))

/-- The running-cursor loop of `RowNode::Draw` places each child exactly at
the cumulative-width offset described by the specification. -/
theorem drawRow_spec (r : Renderer) (asc : Int) (ms : List MathNode) : ∀ x y : Int,
    drawRow r asc ms x y
      = ((List.range ms.length).map (specChildPrims r asc x y ms)).flatten := by
  induction ms with
  | nil => intro x y; simp [drawRow]
  | cons c cs ih =>
    intro x y
    simp only [drawRow, List.length_cons, List.range_succ_eq_map, List.map_cons,
      List.map_map, List.flatten_cons]
    congr 1
    · simp [specChildPrims]
    · rw [ih (x + (dims c).width) y]
      have hfun : specChildPrims r asc x y (c :: cs) ∘ Nat.succ
          = specChildPrims r asc (x + (dims c).width) y cs := by
        funext i
        simp [specChildPrims, Function.comp, List.take_succ_cons, add_assoc,
          Nat.succ_eq_add_one]
      rw [hfun]

/-- Every starting accumulator is below the running maximum of a fold. -/
theorem foldlMax_le_acc (f : MathNode → Int) :
    ∀ (ms : List MathNode) (a : Int), a ≤ ms.foldl (fun b c => max b (f c)) a := by
  intro ms
  induction ms with
  | nil => intro a; simp
  | cons c cs ih => intro a; exact le_trans (le_max_left a (f c)) (ih (max a (f c)))

/-- Every list member is below the running maximum of a fold. -/
theorem le_foldlMax (f : MathNode → Int) :
    ∀ (ms : List MathNode) (a : Int) (c : MathNode), c ∈ ms →
      f c ≤ ms.foldl (fun b x => max b (f x)) a := by
  intro ms
  induction ms with
  | nil => intro a c hc; cases hc
  | cons c0 cs ih =>
    intro a c hc
    rcases List.mem_cons.1 hc with rfl | hmem
    · exact le_trans (le_max_right a (f c)) (foldlMax_le_acc f cs (max a (f c)))
    · exact ih (max a (f c0)) c hmem

/-- The running maximum of a fold is its accumulator or an element's value. -/
theorem foldlMax_attained (f : MathNode → Int) :
    ∀ (ms : List MathNode) (a : Int),
      ms.foldl (fun b x => max b (f x)) a = a ∨
      ∃ c ∈ ms, ms.foldl (fun b x => max b (f x)) a = f c := by
  intro ms
  induction ms with
  | nil => intro a; exact Or.inl rfl
  | cons c0 cs ih =>
    intro a
    rcases ih (max a (f c0)) with h | ⟨c, hc, h⟩
    · rcases max_choice a (f c0) with hm | hm
      · exact Or.inl (by rw [List.foldl_cons, h, hm])
      · exact Or.inr ⟨c0, List.mem_cons_self _ _, by rw [List.foldl_cons, h, hm]⟩
    · exact Or.inr ⟨c, List.mem_cons_of_mem _ hc, by rw [List.foldl_cons, h]⟩

/-- C1: drawing a measured `SequenceNode` places child `i` at cumulative
horizontal offset `Σ widths of children 0..i-1` and vertical top-offset
`rowAscent − child.ascent` below the origin, where the measured `rowAscent`
is the maximum ascent over all children (an upper bound, attained unless it
is the initial 0) — so every child shares the row's baseline. -/
theorem row_draw_baseline_alignment (r : Renderer) (d : Dims) (cs : List MathNode)
    (x y : Int) :
    draw r (measure r (.RowNode d cs)) x y
      = ((List.range (measureList r cs).length).map
          (specChildPrims r (dims (measure r (.RowNode d cs))).ascent x y
            (measureList r cs))).flatten
    ∧ (∀ c ∈ measureList r cs,
        (dims c).ascent ≤ (dims (measure r (.RowNode d cs))).ascent)
    ∧ ((dims (measure r (.RowNode d cs))).ascent = 0 ∨
        ∃ c ∈ measureList r cs,
          (dims (measure r (.RowNode d cs))).ascent = (dims c).ascent) := by
  refine ⟨?_, ?_, ?_⟩
  · exact drawRow_spec r (maxAscent (measureList r cs)) (measureList r cs) x y
  · exact fun c hc => le_foldlMax (fun c => (dims c).ascent) (measureList r cs) 0 c hc
  · exact foldlMax_attained (fun c => (dims c).ascent) (measureList r cs) 0

/-- A concrete renderer with width = string length and line height 10, used
to instantiate hypotheses at concrete inputs. -/
def unitR : Renderer := ⟨fun _ _ s => (s.length : Int), fun _ _ => 10⟩

/-- Witness: in a concrete measured one-child row, the child's ascent is
bounded by the row's measured ascent. -/
theorem row_draw_baseline_alignment_witness :
    (dims (measure unitR (MathNode.TextNode dims0 ("x") true 28 0))).ascent
      ≤ (dims (measure unitR
          (.RowNode dims0 [MathNode.TextNode dims0 ("x") true 28 0]))).ascent :=
  (row_draw_baseline_alignment unitR dims0 [MathNode.TextNode dims0 ("x") true 28 0]
      0 0).2.1
    (measure unitR (MathNode.TextNode dims0 ("x") true 28 0)) (by simp [measureList])

/-- The `y`-coordinates of the endpoints of the line primitives in a list. -/
def lineYs : List Prim → List Int
  | [] => []
  | .line _ y1 _ y2 :: ps => y1 :: y2 :: lineYs ps
  | .textP _ _ _ _ _ :: ps => lineYs ps

/-- Truncating halving of a non-negative value stays within `[0, h]`. -/
theorem ctdiv_two_bounds {h : Int} (hh : 0 ≤ h) : 0 ≤ ctdiv h 2 ∧ ctdiv h 2 ≤ h := by
  unfold ctdiv
  rw [Int.tdiv_eq_ediv hh (by omega)]
  omega

/-- C6: a measured `ScalingFenceNode` has width `content.width + 14` and
copies height and ascent from the content; `Draw` emits the content shifted
inward by half the margin (7) and then the synthesized delimiter lines, and
for each of the five delimiters the synthesized lines span vertically exactly
from the fence's top `y` to `y + height` (all endpoints in that range, both
ends attained). -/
theorem fence_measure_and_enclosure (r : Renderer) (t : MathNode) (l rg : String)
    (d : Dims) (x y : Int) (hh : 0 ≤ (dims (measure r t)).height) :
    dims (measure r (.ScalingFenceNode d t l rg))
      = ⟨(dims (measure r t)).width + 14, (dims (measure r t)).height,
         (dims (measure r t)).ascent⟩
    ∧ draw r (measure r (.ScalingFenceNode d t l rg)) x y
      = draw r (measure r t) (x + 7) y
          ++ leftFenceLines l x y (dims (measure r t)).height
          ++ rightFenceLines rg x y ((dims (measure r t)).width + 14)
              (dims (measure r t)).height
    ∧ ((l = "|" ∨ l = "(" ∨ l = "[") →
        (∀ v ∈ lineYs (leftFenceLines l x y (dims (measure r t)).height),
            y ≤ v ∧ v ≤ y + (dims (measure r t)).height)
        ∧ y ∈ lineYs (leftFenceLines l x y (dims (measure r t)).height)
        ∧ y + (dims (measure r t)).height
            ∈ lineYs (leftFenceLines l x y (dims (measure r t)).height))
    ∧ ((rg = "|" ∨ rg = ")" ∨ rg = "]") →
        (∀ v ∈ lineYs (rightFenceLines rg x y ((dims (measure r t)).width + 14)
              (dims (measure r t)).height),
            y ≤ v ∧ v ≤ y + (dims (measure r t)).height)
        ∧ y ∈ lineYs (rightFenceLines rg x y ((dims (measure r t)).width + 14)
              (dims (measure r t)).height)
        ∧ y + (dims (measure r t)).height
            ∈ lineYs (rightFenceLines rg x y ((dims (measure r t)).width + 14)
                (dims (measure r t)).height)) := by
  obtain ⟨h1, h2⟩ := ctdiv_two_bounds hh
  refine ⟨rfl, rfl, ?_, ?_⟩
  · rintro (rfl | rfl | rfl) <;>
      · simp only [leftFenceLines, lineYs, List.mem_cons, List.not_mem_nil, or_false,
          String.reduceEq, reduceIte, if_true, if_false]
        refine ⟨fun v hv => by omega, by tauto, by tauto⟩
  · rintro (rfl | rfl | rfl) <;>
      · simp only [rightFenceLines, lineYs, List.mem_cons, List.not_mem_nil, or_false,
          String.reduceEq, reduceIte, if_true, if_false]
        refine ⟨fun v hv => by omega, by tauto, by tauto⟩

/-- Witness for the fence theorem at a concrete content, position, and the
delimiter `(`: both the fence's top `0` and its bottom `0 + height` are
attained by the synthesized delimiter lines. -/
theorem fence_measure_and_enclosure_witness :
    (0 : Int) ∈ lineYs (leftFenceLines ("(") 0 0
        (dims (measure unitR (.TextNode dims0 ("x") false 10 0))).height)
    ∧ (0 : Int) + (dims (measure unitR (.TextNode dims0 ("x") false 10 0))).height
        ∈ lineYs (leftFenceLines ("(") 0 0
            (dims (measure unitR (.TextNode dims0 ("x") false 10 0))).height) :=
  ⟨((fence_measure_and_enclosure unitR (.TextNode dims0 ("x") false 10 0) ("(") (")")
      dims0 0 0 (by decide)).2.2.1 (Or.inr (Or.inl rfl))).2.1,
   ((fence_measure_and_enclosure unitR (.TextNode dims0 ("x") false 10 0) ("(") (")")
      dims0 0 0 (by decide)).2.2.1 (Or.inr (Or.inl rfl))).2.2⟩

mutual

/-- Re-running `Measure` recomputes identical geometry (helper, per node). -/
theorem measureIdemAux (r : Renderer) :
    ∀ m : MathNode, measure r (measure r m) = measure r m
  | .RowNode d cs => by
      simp only [measure]
      rw [measureListIdemAux r cs]
  | .TextNode d s it fs off => rfl
  | .FracNode d n dn fs => by
      simp only [measure]
      rw [measureIdemAux r n, measureIdemAux r dn]
  | .ScriptNode d b sup sub => by
      simp only [measure]
      rw [measureIdemAux r b, measureOptIdemAux r sup, measureOptIdemAux r sub]
  | .BigOperatorNode d sym lo up fs t => by
      simp only [measure]
      rw [measureOptIdemAux r lo, measureOptIdemAux r up]
  | .IntegralNode d lo up bs => by
      simp only [measure]
      rw [measureOptIdemAux r lo, measureOptIdemAux r up]
  | .SqrtNode d c idx => by
      cases idx with
      | none =>
          simp only [measure, measureOpt]
          rw [measureIdemAux r c]
      | some i =>
          simp only [measure, measureOpt]
          rw [measureIdemAux r c, measureIdemAux r i]
  | .ScalingFenceNode d c l rg => by
      simp only [measure]
      rw [measureIdemAux r c]

/-- Re-running `Measure` over a child list is idempotent (helper). -/
theorem measureListIdemAux (r : Renderer) :
    ∀ ms : List MathNode, measureList r (measureList r ms) = measureList r ms
  | [] => rfl
  | c :: cs => by
      simp only [measureList]
      rw [measureIdemAux r c, measureListIdemAux r cs]

/-- Re-running `Measure` over an optional child is idempotent (helper). -/
theorem measureOptIdemAux (r : Renderer) :
    ∀ o : Option MathNode, measureOpt r (measureOpt r o) = measureOpt r o
  | none => rfl
  | some m => by
      simp only [measureOpt]
      rw [measureIdemAux r m]

end

/-- C7: for a fixed renderer, running the `Measure` pass a second time with
no intervening modification leaves every node's stored width, height, and
ascent unchanged — the re-measured tree is identical. -/
theorem measure_idempotent (r : Renderer) (t : MathNode) :
    measure r (measure r t) = measure r t :=
  measureIdemAux r t

/-- C8: with fixed renderer metrics, parsing the same markup twice with the
same base font size — the second run seeing the symbol table already
initialized by the first (`InitSymbols` is guarded and idempotent) — and
measuring both trees yields node-for-node identical geometry. -/
theorem parse_measure_deterministic (s : List Char) (fs : Int) (r : Renderer) :
    measure r (parseWith (initSymbols (initSymbols [])) fs s)
      = measure r (parseWith (initSymbols []) fs s) := by
  have h : initSymbols (initSymbols []) = initSymbols [] := rfl
  rw [h]

/-- Lemma: `takeOne` never lengthens the remaining input. -/
theorem takeOne_len (s : List Char) : (takeOne s).2.length ≤ s.length := by
  cases s <;> simp [takeOne]

/-- The maximal-run split decomposes the input's length. -/
theorem takeWhile_add_dropWhile_len (p : Char → Bool) (s : List Char) :
    (s.takeWhile p).length + (s.dropWhile p).length = s.length := by
  rw [← List.length_append, List.takeWhile_append_dropWhile]

/-- Dropping a maximal run never lengthens the input. -/
theorem dropWhile_len_le (p : Char → Bool) (s : List Char) :
    (s.dropWhile p).length ≤ s.length := by
  have := takeWhile_add_dropWhile_len p s
  omega

/-- The brace scan returns a block and a remainder no longer than its input. -/
theorem blockBrace_len (s : List Char) : ∀ d : Nat,
    (blockBrace d s).1.length ≤ s.length ∧ (blockBrace d s).2.length ≤ s.length := by
  induction s with
  | nil => intro d; simp [blockBrace]
  | cons c t ih =>
    intro d
    simp only [blockBrace]
    generalize (if c = '{' then d + 1 else if c = '}' then d - 1 else d) = d2
    rcases ih d2 with ⟨h1, h2⟩
    split
    · simp
    · constructor <;> simp <;> omega

/-- Block extraction returns a block and a remainder no longer than its input. -/
theorem parseBlockStr_len (s : List Char) :
    (parseBlockStr s).1.length ≤ s.length ∧ (parseBlockStr s).2.length ≤ s.length := by
  cases s with
  | nil => simp [parseBlockStr]
  | cons c t =>
    simp only [parseBlockStr]
    split
    · have := blockBrace_len t 1
      constructor <;> simp <;> omega
    · split
      · have h1 := takeWhile_add_dropWhile_len (fun x => !decide (x = ']')) t
        simp only [Bool.not_eq_true', decide_eq_false_iff_not] at h1
        have h2 := dropWhile_len_le (fun x => !decide (x = ']')) t
        simp only [Bool.not_eq_true', decide_eq_false_iff_not] at h2
        constructor <;> simp <;> omega
      · simp

/-- The `\left`/`\right` scan returns an inner substring and a remainder no
longer than its input. -/
theorem leftScan_len (s : List Char) : ∀ d : Nat,
    (leftScan d s).1.length ≤ s.length ∧ (leftScan d s).2.length ≤ s.length := by
  induction s with
  | nil => intro d; simp [leftScan]
  | cons c t ih =>
    intro d
    simp only [leftScan]
    split
    · split
      · simp
      · rcases ih (d - 1) with ⟨ha1, ha2⟩
        constructor <;> simp <;> omega
    · generalize (if ("\\left").toList.isPrefixOf (c :: t) then d + 1 else d) = d2
      rcases ih d2 with ⟨hb1, hb2⟩
      constructor <;> simp <;> omega

/-- Bound for the right-delimiter consumption tail of the `\left` branch. -/
theorem fenceRest_len (s4 : List Char) :
    ((if (takeOne s4).1.isEmpty && !(takeOne s4).2.isEmpty then takeOne (takeOne s4).2
      else takeOne s4).2).length ≤ s4.length := by
  cases s4 with
  | nil => simp [takeOne]
  | cons c t => cases t <;> simp [takeOne]

/-- Fuel adequacy for the parser: with fuel more than twice the remaining
input length, every parser function returns a result, and the remaining
input never grows (`ParseItem` strictly consumes at least one character).
This is exactly the C++ termination argument: every loop iteration advances
the cursor or exits, and every recursive sub-parse runs on an extracted
substring shorter than what the caller consumed. -/
theorem parserFuelAdequate : ∀ n : Nat,
    (∀ tbl fs s, 2 * s.length < n →
      ∃ out, parseRun n tbl fs s = some out ∧ (out.2 : List Char).length ≤ s.length) ∧
    (∀ tbl fs s, s ≠ [] → 2 * s.length ≤ n →
      ∃ out, parseItem n tbl fs s = some out ∧ (out.2 : List Char).length < s.length) ∧
    (∀ tbl fs base s, 2 * s.length < n →
      ∃ out, checkForScripts n tbl fs base s = some out ∧
        (out.2 : List Char).length ≤ s.length) ∧
    (∀ tbl fs s, 2 * s.length < n →
      ∃ out, parseCommand n tbl fs s = some out ∧ (out.2 : List Char).length ≤ s.length) := by
  intro n
  induction n with
  | zero =>
    refine ⟨fun tbl fs s h => absurd h (by omega), ?_,
            fun tbl fs b s h => absurd h (by omega),
            fun tbl fs s h => absurd h (by omega)⟩
    intro tbl fs s hne hlen
    cases s with
    | nil => exact absurd rfl hne
    | cons c t => simp at hlen
  | succ n ih =>
    obtain ⟨ihR, ihI, ihC, ihD⟩ := ih
    refine ⟨?_, ?_, ?_, ?_⟩
    · -- parseRun
      intro tbl fs s hlen
      cases s with
      | nil => exact ⟨([], []), rfl, by simp⟩
      | cons c t =>
        by_cases hterm : c = '}' ∨ c = ']'
        · exact ⟨([], c :: t), by simp [parseRun, hterm], le_refl _⟩
        · obtain ⟨⟨node, s1⟩, hI1, hI2⟩ :=
            ihI tbl fs (c :: t) (by simp) (by simp at hlen ⊢; omega)
          obtain ⟨⟨node2, s2⟩, hC1, hC2⟩ :=
            ihC tbl fs node s1 (by simp at hI2 hlen; omega)
          obtain ⟨⟨items, s3⟩, hR1, hR2⟩ :=
            ihR tbl fs s2 (by simp at hI2 hC2 hlen; omega)
          refine ⟨(node2 :: items, s3), ?_, ?_⟩
          · simp [parseRun, hterm, hI1, hC1, hR1]
          · simp at hI2 hC2 hR2 ⊢; omega
    · -- parseItem
      intro tbl fs s hne hlen
      cases s with
      | nil => exact absurd rfl hne
      | cons c t =>
        by_cases hc : c = '\\'
        · subst hc
          obtain ⟨⟨node, s1⟩, hD1, hD2⟩ := ihD tbl fs t (by simp at hlen ⊢; omega)
          exact ⟨(node, s1), by simp [parseItem, hD1], by simp at hD2 ⊢; omega⟩
        · by_cases hd : c.isDigit
          · refine ⟨(.TextNode dims0
                (String.mk (c :: t.takeWhile fun d => d.isDigit || d = '.')) false fs 0,
                t.dropWhile fun d => d.isDigit || d = '.'), ?_, ?_⟩
            · simp [parseItem, hc, hd]
            · have := dropWhile_len_le (fun d => d.isDigit || d = '.') t
              simp; omega
          · by_cases ha : c.isAlpha
            · exact ⟨(.TextNode dims0 (String.mk [c]) true fs 0, t),
                by simp [parseItem, hc, hd, ha], by simp⟩
            · exact ⟨(.TextNode dims0 (String.mk [c]) false fs 0, t),
                by simp [parseItem, hc, hd, ha], by simp⟩
    · -- checkForScripts
      intro tbl fs base s hlen
      cases s with
      | nil => exact ⟨(base, []), by simp [checkForScripts], by simp⟩
      | cons c t =>
        by_cases hsc : c = '^' ∨ c = '_'
        · have hpb := parseBlockStr_len t
          obtain ⟨⟨items, rest0⟩, hRun1, _⟩ :=
            ihR tbl (cmul 7 10 fs) (parseBlockStr t).1 (by simp at hlen; omega)
          obtain ⟨⟨node2, s2⟩, hC1, hC2⟩ :=
            ihC tbl fs (attachScript c (.RowNode dims0 items) base) (parseBlockStr t).2
              (by simp at hlen; omega)
          refine ⟨(node2, s2), ?_, ?_⟩
          · simp [checkForScripts, hsc, hRun1, hC1]
          · simp at hC2 ⊢; omega
        · exact ⟨(base, c :: t), by simp [checkForScripts, hsc], le_refl _⟩
    · -- parseCommand
      intro tbl fs s hlen
      have hsplit := takeWhile_add_dropWhile_len Char.isAlpha s
      by_cases h1 : s.takeWhile Char.isAlpha = "left".toList
      · have hc4 : (s.takeWhile Char.isAlpha).length = 4 := by rw [h1]; rfl
        have ht1 := takeOne_len (s.dropWhile Char.isAlpha)
        have hscan := leftScan_len (takeOne (s.dropWhile Char.isAlpha)).2 0
        obtain ⟨⟨items, rest0⟩, hR1, _⟩ :=
          ihR tbl fs (leftScan 0 (takeOne (s.dropWhile Char.isAlpha)).2).1 (by omega)
        simp only [parseCommand, eq_true h1, if_true, hR1]
        refine ⟨_, rfl, ?_⟩
        have hs4 : ((if ("\\right").toList.isPrefixOf
              (leftScan 0 (takeOne (s.dropWhile Char.isAlpha)).2).2
            then (leftScan 0 (takeOne (s.dropWhile Char.isAlpha)).2).2.drop 6
            else (leftScan 0 (takeOne (s.dropWhile Char.isAlpha)).2).2) : List Char).length
            ≤ (leftScan 0 (takeOne (s.dropWhile Char.isAlpha)).2).2.length := by
          split <;> simp
        have hfr := fenceRest_len (if ("\\right").toList.isPrefixOf
              (leftScan 0 (takeOne (s.dropWhile Char.isAlpha)).2).2
            then (leftScan 0 (takeOne (s.dropWhile Char.isAlpha)).2).2.drop 6
            else (leftScan 0 (takeOne (s.dropWhile Char.isAlpha)).2).2)
        simp only
        omega
      · by_cases h2 : s.takeWhile Char.isAlpha = "frac".toList
        · have hc4 : (s.takeWhile Char.isAlpha).length = 4 := by rw [h2]; rfl
          have hp1 := parseBlockStr_len (s.dropWhile Char.isAlpha)
          have hp2 := parseBlockStr_len (parseBlockStr (s.dropWhile Char.isAlpha)).2
          obtain ⟨⟨ni, r1⟩, hn1, _⟩ :=
            ihR tbl fs (parseBlockStr (s.dropWhile Char.isAlpha)).1 (by omega)
          obtain ⟨⟨di, r2⟩, hd1, _⟩ :=
            ihR tbl fs (parseBlockStr (parseBlockStr (s.dropWhile Char.isAlpha)).2).1 (by omega)
          simp only [parseCommand, eq_false h1, eq_true h2, if_false, if_true, hn1, hd1]
          exact ⟨_, rfl, by simp only; omega⟩
        · by_cases h3 : s.takeWhile Char.isAlpha = "sqrt".toList
          · have hc4 : (s.takeWhile Char.isAlpha).length = 4 := by rw [h3]; rfl
            have hp1 := parseBlockStr_len (s.dropWhile Char.isAlpha)
            have hp2 := parseBlockStr_len (parseBlockStr (s.dropWhile Char.isAlpha)).2
            by_cases h3b : (s.dropWhile Char.isAlpha).head? = some '['
            · obtain ⟨⟨ii, r1⟩, hi1, _⟩ :=
                ihR tbl (cmul 3 5 fs) (parseBlockStr (s.dropWhile Char.isAlpha)).1 (by omega)
              obtain ⟨⟨ci, r2⟩, hc1, _⟩ :=
                ihR tbl fs (parseBlockStr (parseBlockStr (s.dropWhile Char.isAlpha)).2).1
                  (by omega)
              simp only [parseCommand, eq_false h1, eq_false h2, eq_true h3, eq_true h3b,
                if_false, if_true, hi1, hc1]
              exact ⟨_, rfl, by simp only; omega⟩
            · obtain ⟨⟨ci, r2⟩, hc1, _⟩ :=
                ihR tbl fs (parseBlockStr (s.dropWhile Char.isAlpha)).1 (by omega)
              simp only [parseCommand, eq_false h1, eq_false h2, eq_true h3, eq_false h3b,
                if_false, if_true, hc1]
              exact ⟨_, rfl, by simp only; omega⟩
          · by_cases h4 : s.takeWhile Char.isAlpha = "int".toList
            · simp only [parseCommand, eq_false h1, eq_false h2, eq_false h3, eq_true h4,
                if_false, if_true]
              exact ⟨_, rfl, by simp only; omega⟩
            · by_cases h5 : s.takeWhile Char.isAlpha = "sum".toList ∨
                  s.takeWhile Char.isAlpha = "prod".toList
              · simp only [parseCommand, eq_false h1, eq_false h2, eq_false h3, eq_false h4,
                  eq_true h5, if_false, if_true]
                exact ⟨_, rfl, by simp only; omega⟩
              · by_cases h6 : s.takeWhile Char.isAlpha = "lim".toList
                · simp only [parseCommand, eq_false h1, eq_false h2, eq_false h3,
                    eq_false h4, eq_false h5, eq_true h6, if_false, if_true]
                  exact ⟨_, rfl, by simp only; omega⟩
                · by_cases h7 : s.takeWhile Char.isAlpha = "mathrm".toList
                  · have hp1 := parseBlockStr_len (s.dropWhile Char.isAlpha)
                    simp only [parseCommand, eq_false h1, eq_false h2, eq_false h3,
                      eq_false h4, eq_false h5, eq_false h6, eq_true h7, if_false, if_true]
                    exact ⟨_, rfl, by simp only; omega⟩
                  · by_cases h8 : s.takeWhile Char.isAlpha = "!".toList
                    · simp only [parseCommand, eq_false h1, eq_false h2, eq_false h3,
                        eq_false h4, eq_false h5, eq_false h6, eq_false h7, eq_true h8,
                        if_false, if_true]
                      exact ⟨_, rfl, by simp only; omega⟩
                    · by_cases h9 : s.takeWhile Char.isAlpha = ",".toList
                      · simp only [parseCommand, eq_false h1, eq_false h2, eq_false h3,
                          eq_false h4, eq_false h5, eq_false h6, eq_false h7, eq_false h8,
                          eq_true h9, if_false, if_true]
                        exact ⟨_, rfl, by simp only; omega⟩
                      · by_cases h10 : functionNames.contains
                            (String.mk (s.takeWhile Char.isAlpha)) = true
                        · simp only [parseCommand, eq_false h1, eq_false h2, eq_false h3,
                            eq_false h4, eq_false h5, eq_false h6, eq_false h7, eq_false h8,
                            eq_false h9, h10, if_false, if_true]
                          exact ⟨_, rfl, by simp only; omega⟩
                        · cases hlook : tbl.lookup (String.mk (s.takeWhile Char.isAlpha)) with
                          | some v =>
                            simp only [parseCommand, eq_false h1, eq_false h2, eq_false h3,
                              eq_false h4, eq_false h5, eq_false h6, eq_false h7,
                              eq_false h8, eq_false h9, eq_false h10, hlook, if_false, if_true]
                            exact ⟨_, rfl, by simp only; omega⟩
                          | none =>
                            simp only [parseCommand, eq_false h1, eq_false h2, eq_false h3,
                              eq_false h4, eq_false h5, eq_false h6, eq_false h7,
                              eq_false h8, eq_false h9, eq_false h10, hlook, if_false, if_true]
                            exact ⟨_, rfl, by simp only; omega⟩

/-- C10: for every input, symbol table and base font size, the parser
terminates: fuel `2·|input| + 1` (the fuel `parseWith` uses) is never
exhausted, so the top-level loop, block extraction, the `\left`/`\right`
scan, and script attachment all complete with a result. -/
theorem parse_terminates (tbl : List (String × String)) (fs : Int) (s : List Char) :
    ∃ out, parseRun (2 * s.length + 1) tbl fs s = some out :=
  let ⟨out, h1, _⟩ := (parserFuelAdequate (2 * s.length + 1)).1 tbl fs s (by omega)
  ⟨out, h1⟩

/-- Whether a node is a `ScriptNode` carrying a superscript and no
subscript — the one shape whose measured ascent can exceed its height. -/
def superOnlyScript : MathNode → Bool
  | .ScriptNode _ _ (some _) none => true
  | _ => false

mutual

/-- Shape invariant of parser-produced trees: every `TextNode` has zero
horizontal offset (the `\!`/`\,` branches that would set one are dead code),
and every `ScriptNode` base, `SqrtNode` radicand and fence content is not a
superscript-only script (bases come from `ParseItem`, radicands and fence
contents are freshly parsed sequences). -/
def wfNode : MathNode → Bool
  | .RowNode _ cs => wfList cs
  | .TextNode _ _ _ _ off => off = 0
  | .FracNode _ n dn _ => wfNode n && wfNode dn
  | .ScriptNode _ b sup sub => !superOnlyScript b && wfNode b && wfOpt sup && wfOpt sub
  | .BigOperatorNode _ _ lo up _ _ => wfOpt lo && wfOpt up
  | .IntegralNode _ lo up _ => wfOpt lo && wfOpt up
  | .SqrtNode _ c idx => !superOnlyScript c && wfNode c && wfOpt idx
  | .ScalingFenceNode _ c _ _ => !superOnlyScript c && wfNode c

/-- Conjunction of `wfNode` over a child list. -/
def wfList : List MathNode → Bool
  | [] => true
  | c :: cs => wfNode c && wfList cs

/-- Conjunction of `wfNode` over an optional child. -/
def wfOpt : Option MathNode → Bool
  | none => true
  | some m => wfNode m

end

/-- The measured-geometry invariant at one node: non-negative width, height
and ascent, and `ascent ≤ height` for every node that is not a
superscript-only `ScriptNode`. -/
def nodeOK (m : MathNode) : Prop :=
  0 ≤ (dims m).width ∧ 0 ≤ (dims m).height ∧ 0 ≤ (dims m).ascent ∧
    (superOnlyScript m = false → (dims m).ascent ≤ (dims m).height)

mutual

/-- Holds when `nodeOK` holds at every node of a tree. -/
def allOK : MathNode → Prop
  | .RowNode d cs => nodeOK (.RowNode d cs) ∧ allOKList cs
  | .TextNode d s it fs off => nodeOK (.TextNode d s it fs off)
  | .FracNode d n dn fs => nodeOK (.FracNode d n dn fs) ∧ allOK n ∧ allOK dn
  | .ScriptNode d b sup sub =>
      nodeOK (.ScriptNode d b sup sub) ∧ allOK b ∧ allOKOpt sup ∧ allOKOpt sub
  | .BigOperatorNode d sym lo up fs t =>
      nodeOK (.BigOperatorNode d sym lo up fs t) ∧ allOKOpt lo ∧ allOKOpt up
  | .IntegralNode d lo up bs => nodeOK (.IntegralNode d lo up bs) ∧ allOKOpt lo ∧ allOKOpt up
  | .SqrtNode d c idx => nodeOK (.SqrtNode d c idx) ∧ allOK c ∧ allOKOpt idx
  | .ScalingFenceNode d c l rg => nodeOK (.ScalingFenceNode d c l rg) ∧ allOK c

/-- Conjunction of `allOK` over a child list. -/
def allOKList : List MathNode → Prop
  | [] => True
  | c :: cs => allOK c ∧ allOKList cs

/-- Conjunction of `allOK` over an optional child. -/
def allOKOpt : Option MathNode → Prop
  | none => True
  | some m => allOK m

end

mutual

/-- Decidable check that every node of a tree satisfies `ascent ≤ height`. -/
def ascHeightB : MathNode → Bool
  | .RowNode d cs => decide (d.ascent ≤ d.height) && ascHeightListB cs
  | .TextNode d _ _ _ _ => decide (d.ascent ≤ d.height)
  | .FracNode d n dn _ => decide (d.ascent ≤ d.height) && ascHeightB n && ascHeightB dn
  | .ScriptNode d b sup sub =>
      decide (d.ascent ≤ d.height) && ascHeightB b && ascHeightOptB sup && ascHeightOptB sub
  | .BigOperatorNode d _ lo up _ _ =>
      decide (d.ascent ≤ d.height) && ascHeightOptB lo && ascHeightOptB up
  | .IntegralNode d lo up _ =>
      decide (d.ascent ≤ d.height) && ascHeightOptB lo && ascHeightOptB up
  | .SqrtNode d c idx => decide (d.ascent ≤ d.height) && ascHeightB c && ascHeightOptB idx
  | .ScalingFenceNode d c _ _ => decide (d.ascent ≤ d.height) && ascHeightB c

/-- Conjunction of `ascHeightB` over a child list. -/
def ascHeightListB : List MathNode → Bool
  | [] => true
  | c :: cs => ascHeightB c && ascHeightListB cs

/-- Conjunction of `ascHeightB` over an optional child. -/
def ascHeightOptB : Option MathNode → Bool
  | none => true
  | some m => ascHeightB m

end

/-- The renderer answers only non-negative text widths and heights. -/
def metricsNonneg (r : Renderer) : Prop :=
  (∀ fs it s, 0 ≤ r.textWidth fs it s) ∧ ∀ fs it, 0 ≤ r.textHeight fs it

/-- A concrete non-negative renderer: width `|fontSize| · length`, height
`|fontSize|` (so e.g. height 28 at font 28, height 19 at the 70% script font). -/
def absR : Renderer :=
  ⟨fun fs _ s => ((fs.natAbs * s.length : Nat) : Int), fun fs _ => (fs.natAbs : Int)⟩

/-- Lemma: `allOK` yields the single-node invariant at the root. -/
theorem allOK_nodeOK : ∀ m : MathNode, allOK m → nodeOK m := by
  intro m
  cases m <;> intro h <;> first | exact h | exact h.1

/-- Lemma: `allOKList` yields `allOK` at every member. -/
theorem allOKList_mem : ∀ ms : List MathNode, allOKList ms → ∀ c ∈ ms, allOK c := by
  intro ms
  induction ms with
  | nil => intro _ c hc; cases hc
  | cons c0 cs ih =>
    intro h c hc
    rcases List.mem_cons.1 hc with rfl | hmem
    · exact h.1
    · exact ih h.2 c hmem

/-- A fold of non-negative width contributions from a non-negative
accumulator stays non-negative. -/
theorem sumWidths_nonneg_aux : ∀ (ms : List MathNode) (a : Int), 0 ≤ a →
    (∀ c ∈ ms, 0 ≤ (dims c).width) → 0 ≤ ms.foldl (fun w c => w + (dims c).width) a := by
  intro ms
  induction ms with
  | nil => intro a ha _; simpa using ha
  | cons c cs ih =>
    intro a ha hm
    exact ih (a + (dims c).width)
      (by have := hm c (List.mem_cons_self _ _); omega)
      (fun x hx => hm x (List.mem_cons_of_mem _ hx))

/-- The `(int)(h * 0.8)` cast of a non-negative height lies in `[0, h]`. -/
theorem cmul45_bounds {h : Int} (hh : 0 ≤ h) : 0 ≤ cmul 4 5 h ∧ cmul 4 5 h ≤ h := by
  unfold cmul ctdiv
  rw [Int.tdiv_eq_ediv (by omega) (by omega)]
  omega

/-- Lemma: `Measure` does not change whether a node is a superscript-only script. -/
theorem superOnly_measure (r : Renderer) :
    ∀ m : MathNode, superOnlyScript (measure r m) = superOnlyScript m := by
  intro m
  cases m with
  | ScriptNode d b sup sub =>
      cases sup <;> cases sub <;> simp [measure, measureOpt, superOnlyScript]
  | SqrtNode d c idx => cases idx <;> simp [measure, measureOpt, superOnlyScript]
  | RowNode d cs => simp [measure, superOnlyScript]
  | TextNode d s it fs off => simp [measure, superOnlyScript]
  | FracNode d n dn fs => simp [measure, superOnlyScript]
  | BigOperatorNode d sym lo up fs t => simp [measure, superOnlyScript]
  | IntegralNode d lo up bs => simp [measure, superOnlyScript]
  | ScalingFenceNode d c l rg => simp [measure, superOnlyScript]

/-- Attaching one script suffix preserves the parser's shape invariant. -/
theorem attachScript_wf (c : Char) (content base : MathNode)
    (hb : wfNode base = true) (hc : wfNode content = true) :
    wfNode (attachScript c content base) = true := by
  cases base <;>
    simp only [attachScript] <;>
    split <;>
    simp_all [wfNode, wfOpt, superOnlyScript]

mutual

/-- On a shape-invariant tree, `Measure` with non-negative metrics yields
non-negative width/height/ascent everywhere, and `ascent ≤ height` at every
node that is not a superscript-only script. -/
theorem measureOKAux (r : Renderer) (hr : metricsNonneg r) :
    ∀ m : MathNode, wfNode m = true → allOK (measure r m)
  | .RowNode d cs => fun hwf => by
      have hl := measureOKListAux r hr cs (by simpa [wfNode] using hwf)
      have hmem : ∀ c ∈ measureList r cs, 0 ≤ (dims c).width := fun c hc =>
        (allOK_nodeOK c (allOKList_mem _ hl c hc)).1
      have hw : 0 ≤ sumWidths (measureList r cs) :=
        sumWidths_nonneg_aux _ 0 le_rfl hmem
      have ha : (0 : Int) ≤ maxAscent (measureList r cs) :=
        foldlMax_le_acc (fun c => (dims c).ascent) _ 0
      have hd : (0 : Int) ≤ maxDescent (measureList r cs) :=
        foldlMax_le_acc (fun c => (dims c).height - (dims c).ascent) _ 0
      refine ⟨⟨hw, ?_, ha, fun _ => ?_⟩, hl⟩
      · show (0 : Int) ≤ maxAscent (measureList r cs) + maxDescent (measureList r cs)
        omega
      · show maxAscent (measureList r cs)
            ≤ maxAscent (measureList r cs) + maxDescent (measureList r cs)
        omega
  | .TextNode d s it fs off => fun hwf => by
      have hoff : off = 0 := by simpa [wfNode] using hwf
      subst hoff
      have hw := hr.1 fs it s
      have hh := hr.2 fs it
      obtain ⟨hc1, hc2⟩ := cmul45_bounds hh
      refine ⟨?_, hh, hc1, fun _ => hc2⟩
      show 0 ≤ r.textWidth fs it s + 0
      omega
  | .FracNode d n dn fs => fun hwf => by
      simp only [wfNode, Bool.and_eq_true] at hwf
      have h1 := measureOKAux r hr n hwf.1
      have h2 := measureOKAux r hr dn hwf.2
      obtain ⟨hw1, hh1, ha1, _⟩ := allOK_nodeOK _ h1
      obtain ⟨hw2, hh2, ha2, _⟩ := allOK_nodeOK _ h2
      refine ⟨⟨?_, ?_, ?_, fun _ => ?_⟩, h1, h2⟩
      · show 0 ≤ max (dims (measure r n)).width (dims (measure r dn)).width + 10
        have := le_max_left (dims (measure r n)).width (dims (measure r dn)).width
        omega
      · show 0 ≤ (dims (measure r n)).height + (dims (measure r dn)).height + 4
        omega
      · show 0 ≤ (dims (measure r n)).height + 2
        omega
      · show (dims (measure r n)).height + 2
            ≤ (dims (measure r n)).height + (dims (measure r dn)).height + 4
        omega
  | .ScriptNode d b sup sub => fun hwf => by
      simp only [wfNode, Bool.and_eq_true, Bool.not_eq_true'] at hwf
      obtain ⟨⟨⟨hso, hwb⟩, hwsup⟩, hwsub⟩ := hwf
      have hb := measureOKAux r hr b hwb
      have hsup := measureOKOptAux r hr sup hwsup
      have hsub := measureOKOptAux r hr sub hwsub
      obtain ⟨hbw, hbh, hba, hbah0⟩ := allOK_nodeOK _ hb
      have hbah : (dims (measure r b)).ascent ≤ (dims (measure r b)).height :=
        hbah0 (by rw [superOnly_measure]; exact hso)
      cases sup with
      | none =>
        cases sub with
        | none =>
          refine ⟨⟨?_, hbh, hba, fun _ => hbah⟩, hb, trivial, trivial⟩
          show 0 ≤ (dims (measure r b)).width + 0
          omega
        | some s2 =>
          obtain ⟨h2w, h2h, h2a, _⟩ := allOK_nodeOK _ hsub
          refine ⟨⟨?_, ?_, hba, fun _ => ?_⟩, hb, trivial, hsub⟩
          · show 0 ≤ (dims (measure r b)).width + max 0 (dims (measure r s2)).width
            have := le_max_left (0 : Int) (dims (measure r s2)).width
            omega
          · show 0 ≤ max (dims (measure r b)).height
                ((dims (measure r s2)).height + (dims (measure r b)).ascent)
            have := le_max_left (dims (measure r b)).height
              ((dims (measure r s2)).height + (dims (measure r b)).ascent)
            omega
          · show (dims (measure r b)).ascent ≤ max (dims (measure r b)).height
                ((dims (measure r s2)).height + (dims (measure r b)).ascent)
            have := le_max_right (dims (measure r b)).height
              ((dims (measure r s2)).height + (dims (measure r b)).ascent)
            omega
      | some s1 =>
        obtain ⟨h1w, h1h, h1a, _⟩ := allOK_nodeOK _ hsup
        obtain ⟨htd1, htd2⟩ := ctdiv_two_bounds hba
        cases sub with
        | none =>
          refine ⟨⟨?_, hbh, ?_, fun h => absurd h (by simp [superOnlyScript, measureOpt])⟩,
            hb, hsup, trivial⟩
          · show 0 ≤ (dims (measure r b)).width + max 0 (dims (measure r s1)).width
            have := le_max_left (0 : Int) (dims (measure r s1)).width
            omega
          · show 0 ≤ max (dims (measure r b)).ascent
                ((dims (measure r s1)).height + ctdiv (dims (measure r b)).ascent 2)
            have := le_max_left (dims (measure r b)).ascent
              ((dims (measure r s1)).height + ctdiv (dims (measure r b)).ascent 2)
            omega
        | some s2 =>
          obtain ⟨h2w, h2h, h2a, _⟩ := allOK_nodeOK _ hsub
          refine ⟨⟨?_, ?_, ?_, fun _ => ?_⟩, hb, hsup, hsub⟩
          · show 0 ≤ (dims (measure r b)).width
                + max (max 0 (dims (measure r s1)).width) (dims (measure r s2)).width
            have h3 := le_max_left (max 0 (dims (measure r s1)).width)
              (dims (measure r s2)).width
            have h4 := le_max_left (0 : Int) (dims (measure r s1)).width
            omega
          · show 0 ≤ max (dims (measure r b)).height ((dims (measure r s2)).height
                + max (dims (measure r b)).ascent
                    ((dims (measure r s1)).height + ctdiv (dims (measure r b)).ascent 2))
            have := le_max_left (dims (measure r b)).height ((dims (measure r s2)).height
              + max (dims (measure r b)).ascent
                  ((dims (measure r s1)).height + ctdiv (dims (measure r b)).ascent 2))
            omega
          · show 0 ≤ max (dims (measure r b)).ascent
                ((dims (measure r s1)).height + ctdiv (dims (measure r b)).ascent 2)
            have := le_max_left (dims (measure r b)).ascent
              ((dims (measure r s1)).height + ctdiv (dims (measure r b)).ascent 2)
            omega
          · show max (dims (measure r b)).ascent
                ((dims (measure r s1)).height + ctdiv (dims (measure r b)).ascent 2)
              ≤ max (dims (measure r b)).height ((dims (measure r s2)).height
                + max (dims (measure r b)).ascent
                    ((dims (measure r s1)).height + ctdiv (dims (measure r b)).ascent 2))
            have := le_max_right (dims (measure r b)).height ((dims (measure r s2)).height
              + max (dims (measure r b)).ascent
                  ((dims (measure r s1)).height + ctdiv (dims (measure r b)).ascent 2))
            omega
  | .BigOperatorNode d sym lo up fs t => fun hwf => by
      simp only [wfNode, Bool.and_eq_true] at hwf
      have hlo := measureOKOptAux r hr lo hwf.1
      have hup := measureOKOptAux r hr up hwf.2
      have hW := hr.1 (if t then fs else cmul 3 2 fs) false sym
      have hH := hr.2 (if t then fs else cmul 3 2 fs) false
      obtain ⟨hc1, hc2⟩ := cmul45_bounds hH
      cases lo with
      | none =>
        cases up with
        | none =>
          refine ⟨⟨?_, ?_, ?_, fun _ => ?_⟩, trivial, trivial⟩
          · show 0 ≤ max (r.textWidth (if t then fs else cmul 3 2 fs) false sym)
                (max 0 0) + 4
            have := le_max_left (r.textWidth (if t then fs else cmul 3 2 fs) false sym)
              (max (0 : Int) 0)
            omega
          · show 0 ≤ 0 + cmul 4 5 (r.textHeight (if t then fs else cmul 3 2 fs) false)
                + ((r.textHeight (if t then fs else cmul 3 2 fs) false
                    - cmul 4 5 (r.textHeight (if t then fs else cmul 3 2 fs) false)) + 0)
            omega
          · show 0 ≤ 0 + cmul 4 5 (r.textHeight (if t then fs else cmul 3 2 fs) false)
            omega
          · show 0 + cmul 4 5 (r.textHeight (if t then fs else cmul 3 2 fs) false)
                ≤ 0 + cmul 4 5 (r.textHeight (if t then fs else cmul 3 2 fs) false)
                + ((r.textHeight (if t then fs else cmul 3 2 fs) false
                    - cmul 4 5 (r.textHeight (if t then fs else cmul 3 2 fs) false)) + 0)
            omega
        | some u =>
          obtain ⟨huw, huh, hua, _⟩ := allOK_nodeOK _ hup
          refine ⟨⟨?_, ?_, ?_, fun _ => ?_⟩, trivial, hup⟩
          · show 0 ≤ max (r.textWidth (if t then fs else cmul 3 2 fs) false sym)
                (max 0 (dims (measure r u)).width) + 4
            have := le_max_left (r.textWidth (if t then fs else cmul 3 2 fs) false sym)
              (max (0 : Int) (dims (measure r u)).width)
            omega
          · show 0 ≤ (dims (measure r u)).height
                + cmul 4 5 (r.textHeight (if t then fs else cmul 3 2 fs) false)
                + ((r.textHeight (if t then fs else cmul 3 2 fs) false
                    - cmul 4 5 (r.textHeight (if t then fs else cmul 3 2 fs) false)) + 0)
            omega
          · show 0 ≤ (dims (measure r u)).height
                + cmul 4 5 (r.textHeight (if t then fs else cmul 3 2 fs) false)
            omega
          · show (dims (measure r u)).height
                + cmul 4 5 (r.textHeight (if t then fs else cmul 3 2 fs) false)
                ≤ (dims (measure r u)).height
                + cmul 4 5 (r.textHeight (if t then fs else cmul 3 2 fs) false)
                + ((r.textHeight (if t then fs else cmul 3 2 fs) false
                    - cmul 4 5 (r.textHeight (if t then fs else cmul 3 2 fs) false)) + 0)
            omega
      | some l =>
        obtain ⟨hlw, hlh, hla, _⟩ := allOK_nodeOK _ hlo
        cases up with
        | none =>
          refine ⟨⟨?_, ?_, ?_, fun _ => ?_⟩, hlo, trivial⟩
          · show 0 ≤ max (r.textWidth (if t then fs else cmul 3 2 fs) false sym)
                (max (dims (measure r l)).width 0) + 4
            have := le_max_left (r.textWidth (if t then fs else cmul 3 2 fs) false sym)
              (max (dims (measure r l)).width (0 : Int))
            omega
          · show 0 ≤ 0 + cmul 4 5 (r.textHeight (if t then fs else cmul 3 2 fs) false)
                + ((r.textHeight (if t then fs else cmul 3 2 fs) false
                    - cmul 4 5 (r.textHeight (if t then fs else cmul 3 2 fs) false))
                  + (dims (measure r l)).height)
            omega
          · show 0 ≤ 0 + cmul 4 5 (r.textHeight (if t then fs else cmul 3 2 fs) false)
            omega
          · show 0 + cmul 4 5 (r.textHeight (if t then fs else cmul 3 2 fs) false)
                ≤ 0 + cmul 4 5 (r.textHeight (if t then fs else cmul 3 2 fs) false)
                + ((r.textHeight (if t then fs else cmul 3 2 fs) false
                    - cmul 4 5 (r.textHeight (if t then fs else cmul 3 2 fs) false))
                  + (dims (measure r l)).height)
            omega
        | some u =>
          obtain ⟨huw, huh, hua, _⟩ := allOK_nodeOK _ hup
          refine ⟨⟨?_, ?_, ?_, fun _ => ?_⟩, hlo, hup⟩
          · show 0 ≤ max (r.textWidth (if t then fs else cmul 3 2 fs) false sym)
                (max (dims (measure r l)).width (dims (measure r u)).width) + 4
            have := le_max_left (r.textWidth (if t then fs else cmul 3 2 fs) false sym)
              (max (dims (measure r l)).width (dims (measure r u)).width)
            omega
          · show 0 ≤ (dims (measure r u)).height
                + cmul 4 5 (r.textHeight (if t then fs else cmul 3 2 fs) false)
                + ((r.textHeight (if t then fs else cmul 3 2 fs) false
                    - cmul 4 5 (r.textHeight (if t then fs else cmul 3 2 fs) false))
                  + (dims (measure r l)).height)
            omega
          · show 0 ≤ (dims (measure r u)).height
                + cmul 4 5 (r.textHeight (if t then fs else cmul 3 2 fs) false)
            omega
          · show (dims (measure r u)).height
                + cmul 4 5 (r.textHeight (if t then fs else cmul 3 2 fs) false)
                ≤ (dims (measure r u)).height
                + cmul 4 5 (r.textHeight (if t then fs else cmul 3 2 fs) false)
                + ((r.textHeight (if t then fs else cmul 3 2 fs) false
                    - cmul 4 5 (r.textHeight (if t then fs else cmul 3 2 fs) false))
                  + (dims (measure r l)).height)
            omega
  | .IntegralNode d lo up bs => fun hwf => by
      simp only [wfNode, Bool.and_eq_true] at hwf
      have hlo := measureOKOptAux r hr lo hwf.1
      have hup := measureOKOptAux r hr up hwf.2
      have hW := hr.1 (cmul 3 2 bs) false ("∫")
      have hH := hr.2 (cmul 3 2 bs) false
      obtain ⟨htd1, htd2⟩ := ctdiv_two_bounds hH
      cases lo with
      | none =>
        cases up with
        | none =>
          refine ⟨⟨?_, ?_, ?_, fun _ => ?_⟩, trivial, trivial⟩
          · show 0 ≤ r.textWidth (cmul 3 2 bs) false ("∫") + 0 + 4
            omega
          · show 0 ≤ max (r.textHeight (cmul 3 2 bs) false) 0
            have := le_max_right (r.textHeight (cmul 3 2 bs) false) (0 : Int)
            omega
          · show 0 ≤ ctdiv (r.textHeight (cmul 3 2 bs) false) 2
            omega
          · show ctdiv (r.textHeight (cmul 3 2 bs) false) 2
                ≤ max (r.textHeight (cmul 3 2 bs) false) 0
            have := le_max_left (r.textHeight (cmul 3 2 bs) false) (0 : Int)
            omega
        | some u =>
          obtain ⟨huw, huh, hua, _⟩ := allOK_nodeOK _ hup
          refine ⟨⟨?_, ?_, ?_, fun _ => ?_⟩, trivial, hup⟩
          · show 0 ≤ r.textWidth (cmul 3 2 bs) false ("∫")
                + max 0 (dims (measure r u)).width + 4
            have := le_max_left (0 : Int) (dims (measure r u)).width
            omega
          · show 0 ≤ max (r.textHeight (cmul 3 2 bs) false) (0 + (dims (measure r u)).height)
            have := le_max_left (r.textHeight (cmul 3 2 bs) false)
              (0 + (dims (measure r u)).height)
            omega
          · show 0 ≤ ctdiv (r.textHeight (cmul 3 2 bs) false) 2
            omega
          · show ctdiv (r.textHeight (cmul 3 2 bs) false) 2
                ≤ max (r.textHeight (cmul 3 2 bs) false) (0 + (dims (measure r u)).height)
            have := le_max_left (r.textHeight (cmul 3 2 bs) false)
              (0 + (dims (measure r u)).height)
            omega
      | some l =>
        obtain ⟨hlw, hlh, hla, _⟩ := allOK_nodeOK _ hlo
        cases up with
        | none =>
          refine ⟨⟨?_, ?_, ?_, fun _ => ?_⟩, hlo, trivial⟩
          · show 0 ≤ r.textWidth (cmul 3 2 bs) false ("∫")
                + max 0 (dims (measure r l)).width + 4
            have := le_max_left (0 : Int) (dims (measure r l)).width
            omega
          · show 0 ≤ max (r.textHeight (cmul 3 2 bs) false) (0 + (dims (measure r l)).height)
            have := le_max_left (r.textHeight (cmul 3 2 bs) false)
              (0 + (dims (measure r l)).height)
            omega
          · show 0 ≤ ctdiv (r.textHeight (cmul 3 2 bs) false) 2
            omega
          · show ctdiv (r.textHeight (cmul 3 2 bs) false) 2
                ≤ max (r.textHeight (cmul 3 2 bs) false) (0 + (dims (measure r l)).height)
            have := le_max_left (r.textHeight (cmul 3 2 bs) false)
              (0 + (dims (measure r l)).height)
            omega
        | some u =>
          obtain ⟨huw, huh, hua, _⟩ := allOK_nodeOK _ hup
          refine ⟨⟨?_, ?_, ?_, fun _ => ?_⟩, hlo, hup⟩
          · show 0 ≤ r.textWidth (cmul 3 2 bs) false ("∫")
                + max (max 0 (dims (measure r u)).width) (dims (measure r l)).width + 4
            have h6 := le_max_left (max (0 : Int) (dims (measure r u)).width)
              (dims (measure r l)).width
            have h7 := le_max_left (0 : Int) (dims (measure r u)).width
            omega
          · show 0 ≤ max (r.textHeight (cmul 3 2 bs) false)
                (0 + (dims (measure r u)).height + (dims (measure r l)).height)
            have := le_max_left (r.textHeight (cmul 3 2 bs) false)
              (0 + (dims (measure r u)).height + (dims (measure r l)).height)
            omega
          · show 0 ≤ ctdiv (r.textHeight (cmul 3 2 bs) false) 2
            omega
          · show ctdiv (r.textHeight (cmul 3 2 bs) false) 2
                ≤ max (r.textHeight (cmul 3 2 bs) false)
                  (0 + (dims (measure r u)).height + (dims (measure r l)).height)
            have := le_max_left (r.textHeight (cmul 3 2 bs) false)
              (0 + (dims (measure r u)).height + (dims (measure r l)).height)
            omega
  | .SqrtNode d c idx => fun hwf => by
      simp only [wfNode, Bool.and_eq_true, Bool.not_eq_true'] at hwf
      obtain ⟨⟨hso, hwc⟩, hwidx⟩ := hwf
      have hc := measureOKAux r hr c hwc
      have hidx := measureOKOptAux r hr idx hwidx
      obtain ⟨hcw, hch, hca, hcah0⟩ := allOK_nodeOK _ hc
      have hcah : (dims (measure r c)).ascent ≤ (dims (measure r c)).height :=
        hcah0 (by rw [superOnly_measure]; exact hso)
      cases idx with
      | none =>
        refine ⟨⟨?_, ?_, ?_, fun _ => ?_⟩, hc, trivial⟩
        · show 0 ≤ (dims (measure r c)).width + 15
          omega
        · show 0 ≤ (dims (measure r c)).height + 5
          omega
        · show 0 ≤ (dims (measure r c)).ascent + 5
          omega
        · show (dims (measure r c)).ascent + 5 ≤ (dims (measure r c)).height + 5
          omega
      | some i =>
        obtain ⟨hiw, hih, hia, _⟩ := allOK_nodeOK _ hidx
        refine ⟨⟨?_, ?_, ?_, fun _ => ?_⟩, hc, hidx⟩
        · show 0 ≤ (dims (measure r c)).width + 15
              + max 0 ((dims (measure r i)).width - 5)
          have := le_max_left (0 : Int) ((dims (measure r i)).width - 5)
          omega
        · show 0 ≤ max ((dims (measure r c)).height + 5)
              (max ((dims (measure r c)).ascent + 5) ((dims (measure r i)).height + 5)
                + ((dims (measure r c)).height - (dims (measure r c)).ascent))
          have := le_max_left ((dims (measure r c)).height + 5)
            (max ((dims (measure r c)).ascent + 5) ((dims (measure r i)).height + 5)
              + ((dims (measure r c)).height - (dims (measure r c)).ascent))
          omega
        · show 0 ≤ max ((dims (measure r c)).ascent + 5) ((dims (measure r i)).height + 5)
          have := le_max_left ((dims (measure r c)).ascent + 5)
            ((dims (measure r i)).height + 5)
          omega
        · show max ((dims (measure r c)).ascent + 5) ((dims (measure r i)).height + 5)
              ≤ max ((dims (measure r c)).height + 5)
                (max ((dims (measure r c)).ascent + 5) ((dims (measure r i)).height + 5)
                  + ((dims (measure r c)).height - (dims (measure r c)).ascent))
          have := le_max_right ((dims (measure r c)).height + 5)
            (max ((dims (measure r c)).ascent + 5) ((dims (measure r i)).height + 5)
              + ((dims (measure r c)).height - (dims (measure r c)).ascent))
          omega
  | .ScalingFenceNode d c l rg => fun hwf => by
      simp only [wfNode, Bool.and_eq_true, Bool.not_eq_true'] at hwf
      obtain ⟨hso, hwc⟩ := hwf
      have hc := measureOKAux r hr c hwc
      obtain ⟨hcw, hch, hca, hcah0⟩ := allOK_nodeOK _ hc
      have hcah : (dims (measure r c)).ascent ≤ (dims (measure r c)).height :=
        hcah0 (by rw [superOnly_measure]; exact hso)
      refine ⟨⟨?_, hch, hca, fun _ => hcah⟩, hc⟩
      show 0 ≤ (dims (measure r c)).width + 14
      omega

/-- Extends `measureOKAux` over a child list. -/
theorem measureOKListAux (r : Renderer) (hr : metricsNonneg r) :
    ∀ ms : List MathNode, wfList ms = true → allOKList (measureList r ms)
  | [] => fun _ => trivial
  | c :: cs => fun h => by
      simp only [wfList, Bool.and_eq_true] at h
      exact ⟨measureOKAux r hr c h.1, measureOKListAux r hr cs h.2⟩

/-- Extends `measureOKAux` over an optional child. -/
theorem measureOKOptAux (r : Renderer) (hr : metricsNonneg r) :
    ∀ o : Option MathNode, wfOpt o = true → allOKOpt (measureOpt r o)
  | none => fun _ => trivial
  | some m => fun h => measureOKAux r hr m (by simpa [wfOpt] using h)

end

/-- Every tree the parser produces satisfies the shape invariant `wfNode`:
all text offsets are zero and script bases / radicands / fence contents are
never superscript-only scripts. -/
theorem parseWfAux : ∀ n : Nat,
    (∀ tbl fs s out, parseRun n tbl fs s = some out → wfList out.1 = true) ∧
    (∀ tbl fs s out, parseItem n tbl fs s = some out → wfNode out.1 = true) ∧
    (∀ tbl fs base s out, wfNode base = true →
        checkForScripts n tbl fs base s = some out → wfNode out.1 = true) ∧
    (∀ tbl fs s out, parseCommand n tbl fs s = some out → wfNode out.1 = true) := by
  intro n
  induction n with
  | zero =>
    refine ⟨?_, ?_, ?_, ?_⟩
    · intro tbl fs s out h; simp [parseRun] at h
    · intro tbl fs s out h; simp [parseItem] at h
    · intro tbl fs base s out _ h; simp [checkForScripts] at h
    · intro tbl fs s out h; simp [parseCommand] at h
  | succ n ih =>
    obtain ⟨ihR, ihI, ihC, ihD⟩ := ih
    refine ⟨?_, ?_, ?_, ?_⟩
    · -- parseRun
      rintro tbl fs s ⟨outl, outr⟩ h
      cases s with
      | nil =>
        simp only [parseRun, Option.some.injEq, Prod.mk.injEq] at h
        obtain ⟨h1, _⟩ := h
        rw [← h1]
        rfl
      | cons c t =>
        by_cases hterm : c = '}' ∨ c = ']'
        · simp only [parseRun, if_pos hterm, Option.some.injEq, Prod.mk.injEq] at h
          obtain ⟨h1, _⟩ := h
          rw [← h1]
          rfl
        · cases hI : parseItem n tbl fs (c :: t) with
          | none => simp [parseRun, hterm, hI] at h
          | some p =>
            obtain ⟨node, s1⟩ := p
            cases hC : checkForScripts n tbl fs node s1 with
            | none => simp [parseRun, hterm, hI, hC] at h
            | some q =>
              obtain ⟨node2, s2⟩ := q
              cases hR : parseRun n tbl fs s2 with
              | none => simp [parseRun, hterm, hI, hC, hR] at h
              | some rr =>
                obtain ⟨items, s3⟩ := rr
                simp only [parseRun, hI, hC, hR] at h
                rw [if_neg hterm] at h
                simp only [Option.some.injEq, Prod.mk.injEq] at h
                obtain ⟨h1, _⟩ := h
                rw [← h1]
                have hn := ihI tbl fs (c :: t) (node, s1) hI
                have hn2 := ihC tbl fs node s1 (node2, s2) hn hC
                have hl := ihR tbl fs s2 (items, s3) hR
                simp [wfList, hn2, hl]
    · -- parseItem
      rintro tbl fs s ⟨outn, outr⟩ h
      cases s with
      | nil => simp [parseItem] at h
      | cons c t =>
        by_cases hc : c = '\\'
        · subst hc
          simp only [parseItem, if_pos rfl] at h
          exact ihD tbl fs t (outn, outr) h
        · by_cases hd : c.isDigit
          · simp only [parseItem, if_neg hc, if_pos hd, Option.some.injEq,
              Prod.mk.injEq] at h
            obtain ⟨h1, _⟩ := h
            rw [← h1]
            rfl
          · by_cases ha : c.isAlpha
            · simp only [parseItem, if_neg hc, if_neg hd, if_pos ha, Option.some.injEq,
                Prod.mk.injEq] at h
              obtain ⟨h1, _⟩ := h
              rw [← h1]
              rfl
            · simp only [parseItem, if_neg hc, if_neg hd, if_neg ha, Option.some.injEq,
                Prod.mk.injEq] at h
              obtain ⟨h1, _⟩ := h
              rw [← h1]
              rfl
    · -- checkForScripts
      rintro tbl fs base s ⟨outn, outr⟩ hbase h
      cases s with
      | nil =>
        simp only [checkForScripts, Option.some.injEq, Prod.mk.injEq] at h
        obtain ⟨h1, _⟩ := h
        rw [← h1]
        exact hbase
      | cons c t =>
        by_cases hsc : c = '^' ∨ c = '_'
        · cases hRun : parseRun n tbl (cmul 7 10 fs) (parseBlockStr t).1 with
          | none => simp [checkForScripts, hsc, hRun] at h
          | some rr =>
            obtain ⟨items, rest0⟩ := rr
            simp only [checkForScripts, if_pos hsc, hRun] at h
            have hcontent : wfNode (.RowNode dims0 items) = true := by
              simp only [wfNode]
              exact ihR tbl (cmul 7 10 fs) (parseBlockStr t).1 (items, rest0) hRun
            exact ihC tbl fs (attachScript c (.RowNode dims0 items) base)
              (parseBlockStr t).2 (outn, outr)
              (attachScript_wf c (.RowNode dims0 items) base hbase hcontent) h
        · simp only [checkForScripts, if_neg hsc, Option.some.injEq, Prod.mk.injEq] at h
          obtain ⟨h1, _⟩ := h
          rw [← h1]
          exact hbase
    · -- parseCommand
      rintro tbl fs s ⟨outn, outr⟩ h
      by_cases h1 : s.takeWhile Char.isAlpha = "left".toList
      · cases hRun : parseRun n tbl fs (leftScan 0 (takeOne (s.dropWhile Char.isAlpha)).2).1 with
        | none =>
            simp only [parseCommand, eq_true h1, if_true, hRun] at h
            exact Option.noConfusion h
        | some rr =>
          obtain ⟨items, rest0⟩ := rr
          simp only [parseCommand, eq_true h1, if_true, hRun, Option.some.injEq,
            Prod.mk.injEq] at h
          obtain ⟨hh1, _⟩ := h
          rw [← hh1]
          have hl := ihR _ _ _ _ hRun
          simp [wfNode, superOnlyScript, hl]
      · by_cases h2 : s.takeWhile Char.isAlpha = "frac".toList
        · cases hn : parseRun n tbl fs (parseBlockStr (s.dropWhile Char.isAlpha)).1 with
          | none =>
              simp only [parseCommand, eq_false h1, eq_true h2, if_false, if_true, hn] at h
              exact Option.noConfusion h
          | some pn =>
            obtain ⟨ni, r1⟩ := pn
            cases hdd : parseRun n tbl fs
                (parseBlockStr (parseBlockStr (s.dropWhile Char.isAlpha)).2).1 with
            | none =>
              simp only [parseCommand, eq_false h1, eq_true h2, if_false, if_true,
                hn, hdd] at h
              exact Option.noConfusion h
            | some pd =>
              obtain ⟨di, r2⟩ := pd
              simp only [parseCommand, eq_false h1, eq_true h2, if_false, if_true,
                hn, hdd, Option.some.injEq, Prod.mk.injEq] at h
              obtain ⟨hh1, _⟩ := h
              rw [← hh1]
              have hl1 := ihR _ _ _ _ hn
              have hl2 := ihR _ _ _ _ hdd
              simp [wfNode, hl1, hl2]
        · by_cases h3 : s.takeWhile Char.isAlpha = "sqrt".toList
          · by_cases h3b : (s.dropWhile Char.isAlpha).head? = some '['
            · cases hi : parseRun n tbl (cmul 3 5 fs)
                  (parseBlockStr (s.dropWhile Char.isAlpha)).1 with
              | none =>
                simp only [parseCommand, eq_false h1, eq_false h2, eq_true h3,
                  eq_true h3b, if_false, if_true, hi] at h
                exact Option.noConfusion h
              | some pi0 =>
                obtain ⟨ii, r1⟩ := pi0
                cases hcc : parseRun n tbl fs
                    (parseBlockStr (parseBlockStr (s.dropWhile Char.isAlpha)).2).1 with
                | none =>
                  simp only [parseCommand, eq_false h1, eq_false h2, eq_true h3,
                    eq_true h3b, if_false, if_true, hi, hcc] at h
                  exact Option.noConfusion h
                | some pc =>
                  obtain ⟨ci, r2⟩ := pc
                  simp only [parseCommand, eq_false h1, eq_false h2, eq_true h3,
                    eq_true h3b, if_false, if_true, hi, hcc, Option.some.injEq,
                    Prod.mk.injEq] at h
                  obtain ⟨hh1, _⟩ := h
                  rw [← hh1]
                  have hl1 := ihR _ _ _ _ hi
                  have hl2 := ihR _ _ _ _ hcc
                  simp [wfNode, wfOpt, superOnlyScript, hl1, hl2]
            · cases hcc : parseRun n tbl fs (parseBlockStr (s.dropWhile Char.isAlpha)).1 with
              | none =>
                simp only [parseCommand, eq_false h1, eq_false h2, eq_true h3,
                  eq_false h3b, if_false, if_true, hcc] at h
                exact Option.noConfusion h
              | some pc =>
                obtain ⟨ci, r2⟩ := pc
                simp only [parseCommand, eq_false h1, eq_false h2, eq_true h3,
                  eq_false h3b, if_false, if_true, hcc, Option.some.injEq,
                  Prod.mk.injEq] at h
                obtain ⟨hh1, _⟩ := h
                rw [← hh1]
                have hl2 := ihR _ _ _ _ hcc
                simp [wfNode, wfOpt, superOnlyScript, hl2]
          · by_cases h4 : s.takeWhile Char.isAlpha = "int".toList
            · simp only [parseCommand, eq_false h1, eq_false h2, eq_false h3, eq_true h4,
                if_false, if_true, Option.some.injEq, Prod.mk.injEq] at h
              obtain ⟨hh1, _⟩ := h
              rw [← hh1]
              rfl
            · by_cases h5 : s.takeWhile Char.isAlpha = "sum".toList ∨
                  s.takeWhile Char.isAlpha = "prod".toList
              · simp only [parseCommand, eq_false h1, eq_false h2, eq_false h3,
                  eq_false h4, eq_true h5, if_false, if_true, Option.some.injEq,
                  Prod.mk.injEq] at h
                obtain ⟨hh1, _⟩ := h
                rw [← hh1]
                rfl
              · by_cases h6 : s.takeWhile Char.isAlpha = "lim".toList
                · simp only [parseCommand, eq_false h1, eq_false h2, eq_false h3,
                    eq_false h4, eq_false h5, eq_true h6, if_false, if_true,
                    Option.some.injEq, Prod.mk.injEq] at h
                  obtain ⟨hh1, _⟩ := h
                  rw [← hh1]
                  rfl
                · by_cases h7 : s.takeWhile Char.isAlpha = "mathrm".toList
                  · simp only [parseCommand, eq_false h1, eq_false h2, eq_false h3,
                      eq_false h4, eq_false h5, eq_false h6, eq_true h7, if_false,
                      if_true, Option.some.injEq, Prod.mk.injEq] at h
                    obtain ⟨hh1, _⟩ := h
                    rw [← hh1]
                    rfl
                  · by_cases h8 : s.takeWhile Char.isAlpha = "!".toList
                    · exfalso
                      have hm : '!' ∈ s.takeWhile Char.isAlpha := by rw [h8]; simp
                      have := List.mem_takeWhile_imp hm
                      simp at this
                    · by_cases h9 : s.takeWhile Char.isAlpha = ",".toList
                      · exfalso
                        have hm : ',' ∈ s.takeWhile Char.isAlpha := by rw [h9]; simp
                        have := List.mem_takeWhile_imp hm
                        simp at this
                      · by_cases h10 : functionNames.contains
                            (String.mk (s.takeWhile Char.isAlpha)) = true
                        · simp only [parseCommand, eq_false h1, eq_false h2, eq_false h3,
                            eq_false h4, eq_false h5, eq_false h6, eq_false h7,
                            eq_false h8, eq_false h9, h10, if_false, if_true,
                            Option.some.injEq, Prod.mk.injEq] at h
                          obtain ⟨hh1, _⟩ := h
                          rw [← hh1]
                          rfl
                        · cases hlook : tbl.lookup (String.mk (s.takeWhile Char.isAlpha)) with
                          | some v =>
                            simp only [parseCommand, eq_false h1, eq_false h2,
                              eq_false h3, eq_false h4, eq_false h5, eq_false h6,
                              eq_false h7, eq_false h8, eq_false h9, eq_false h10,
                              hlook, if_false, if_true, Option.some.injEq,
                              Prod.mk.injEq] at h
                            obtain ⟨hh1, _⟩ := h
                            rw [← hh1]
                            rfl
                          | none =>
                            simp only [parseCommand, eq_false h1, eq_false h2,
                              eq_false h3, eq_false h4, eq_false h5, eq_false h6,
                              eq_false h7, eq_false h8, eq_false h9, eq_false h10,
                              hlook, if_false, if_true, Option.some.injEq,
                              Prod.mk.injEq] at h
                            obtain ⟨hh1, _⟩ := h
                            rw [← hh1]
                            rfl

/-- C2 (amended): after the Measure pass over the tree parsed from any
markup, under every renderer metric assignment with non-negative text widths
and heights, every node satisfies `width ≥ 0`, `height ≥ 0` and `ascent ≥ 0`,
and every node other than a `ScriptNode` carrying a superscript and no
subscript satisfies `ascent ≤ height`. -/
theorem measured_parse_invariant (fs : Int) (s : List Char) (r : Renderer)
    (hr : metricsNonneg r) : allOK (measure r (parseTop fs s)) := by
  have hwf : wfNode (parseTop fs s) = true := by
    simp only [parseTop, parseWith]
    cases hp : parseRun (2 * s.length + 1) (initSymbols []) fs s with
    | none => rfl
    | some out =>
      obtain ⟨items, rest⟩ := out
      have h := (parseWfAux (2 * s.length + 1)).1 _ _ _ _ hp
      simpa [wfNode] using h
  exact measureOKAux r hr _ hwf

/-- Witness: the amended invariant holds concretely for the markup `x+1`
measured with the concrete non-negative renderer `unitR`. -/
theorem measured_parse_invariant_witness :
    allOK (measure unitR (parseTop 28 ['x', '+', '1'])) :=
  measured_parse_invariant 28 ['x', '+', '1'] unitR
    ⟨fun _ _ s => Int.natCast_nonneg _, fun _ _ => by norm_num [unitR]⟩

/-- C2 counterexample: under the non-negative renderer `absR` the tree parsed
from the markup `x^2` contains a node (the `ScriptNode`, superscript only)
whose measured ascent exceeds its height (30 > 28): the claimed invariant
`ascent ≤ height` for every node fails. -/
theorem script_ascent_exceeds_height :
    metricsNonneg absR ∧
    ascHeightB (measure absR (parseTop 28 ['x', '^', '2'])) = false := by
  refine ⟨⟨fun _ _ _ => Int.natCast_nonneg _, fun _ _ => Int.natCast_nonneg _⟩, ?_⟩
  decide

/-- If every character of `cs` satisfies `p` and `rest` does not start with a
`p`-character, the maximal-run split of `cs ++ rest` is exactly `(cs, rest)`. -/
theorem takeWhile_append_all (p : Char → Bool) : ∀ (cs rest : List Char),
    (∀ c ∈ cs, p c = true) → (∀ c, rest.head? = some c → ¬ p c = true) →
    (cs ++ rest).takeWhile p = cs ∧ (cs ++ rest).dropWhile p = rest := by
  intro cs
  induction cs with
  | nil =>
    intro rest _ hr
    cases rest with
    | nil => simp
    | cons c t =>
      have hc : p c = false := by simpa using hr c rfl
      constructor <;> simp [List.takeWhile_cons, List.dropWhile_cons, hc]
  | cons c cs ih =>
    intro rest hall hr
    have hc := hall c (List.mem_cons_self _ _)
    obtain ⟨h1, h2⟩ := ih rest (fun x hx => hall x (List.mem_cons_of_mem _ hx)) hr
    constructor <;> simp [List.takeWhile_cons, List.dropWhile_cons, hc, h1, h2]

/-- C9: a backslash command whose letter-run name is none of the dispatched
commands, none of the fixed function names, and not a key of the symbol
table yields a `TextNode` holding the single placeholder glyph `?`, upright,
at the ambient font size, consuming nothing beyond the name; and parsing
never fails on any input (the fuel `parseWith` supplies always suffices). -/
theorem unknown_command_placeholder (n : Nat) (fs : Int) (cs rest : List Char)
    (hAlpha : ∀ c ∈ cs, c.isAlpha = true)
    (hRest : ∀ c, rest.head? = some c → ¬ c.isAlpha = true)
    (h1 : ¬ cs = "left".toList) (h2 : ¬ cs = "frac".toList)
    (h3 : ¬ cs = "sqrt".toList) (h4 : ¬ cs = "int".toList)
    (h5 : ¬ (cs = "sum".toList ∨ cs = "prod".toList)) (h6 : ¬ cs = "lim".toList)
    (h7 : ¬ cs = "mathrm".toList) (h8 : ¬ cs = "!".toList) (h9 : ¬ cs = ",".toList)
    (h10 : ¬ functionNames.contains (String.mk cs) = true)
    (h11 : (initSymbols []).lookup (String.mk cs) = none) :
    parseCommand (n + 1) (initSymbols []) fs (cs ++ rest)
      = some (.TextNode dims0 ("?") false fs 0, rest)
    ∧ ∀ s : List Char, (parseRun (2 * s.length + 1) (initSymbols []) fs s).isSome := by
  obtain ⟨htw, hdw⟩ := takeWhile_append_all Char.isAlpha cs rest hAlpha hRest
  constructor
  · simp only [parseCommand, htw, hdw, eq_false h1, eq_false h2, eq_false h3,
      eq_false h4, eq_false h5, eq_false h6, eq_false h7, eq_false h8, eq_false h9,
      eq_false h10, h11, if_false]
  · intro s
    obtain ⟨out, hout, _⟩ :=
      (parserFuelAdequate (2 * s.length + 1)).1 (initSymbols []) fs s (by omega)
    simp [hout]

/-- Witness: the unknown command `\foo` at the end of input yields the
placeholder `?`. -/
theorem unknown_command_placeholder_witness :
    parseCommand 1 (initSymbols []) 28 (['f', 'o', 'o'] ++ [])
      = some (.TextNode dims0 ("?") false 28 0, [])
    ∧ ∀ s : List Char, (parseRun (2 * s.length + 1) (initSymbols []) 28 s).isSome :=
  unknown_command_placeholder 0 28 ['f', 'o', 'o'] []
    (by decide) (fun c hc => by simp at hc) (by decide) (by decide) (by decide)
    (by decide) (by decide) (by decide) (by decide) (by decide) (by decide)
    (by decide) (by decide)

end MathSuite
